import Mathlib

/-!
Verification of the entity-component storage core of the `bevy` fork
(`bevy_ecs`: archetypes, edges, resource storage, `Vec32`, query iteration).

Each definition below is a shallow embedding of a function from the
repository sources (`crates/bevy_ecs/src/archetype.rs`,
`crates/bevy_ecs/src/storage/vec32.rs`, `crates/bevy_ecs/src/storage/resource.rs`,
`crates/bevy_ecs/src/query/iter.rs`).  Machine integers are modelled as `Nat`
with explicit bounds where overflow or panics matter; fallible operations and
undefined behaviour (out-of-bounds raw accesses) are modelled with `Option`.
-/

namespace BevyEcs

/-! ## Vec32 (`storage/vec32.rs`)

`ThinArrayPtr<T>` is a raw heap allocation (not part of the excerpt's sources;
its operations are the standard allocator semantics used by `vec32.rs`):
a block of `capacity` cells, each possibly uninitialized.  We model the block
as a list of `Option` cells; writing or reading outside the allocation, or
reading an uninitialized cell, is undefined behaviour and is modelled by
`none` propagation. -/

structure ThinArrayPtr (α : Type) where
  cells : List (Option α)
deriving DecidableEq, Repr

/-- `ThinArrayPtr::empty`: a dangling pointer, no allocation. -/
def ThinArrayPtr.empty {α : Type} : ThinArrayPtr α := ⟨[]⟩

/-- `ThinArrayPtr::alloc(n)`: fresh allocation of `n` uninitialized cells
(called only when there is no existing allocation). -/
def ThinArrayPtr.alloc {α : Type} (n : Nat) : ThinArrayPtr α :=
  ⟨List.replicate n none⟩

/-- `ThinArrayPtr::realloc(current_capacity, new_capacity)`: grow (or shrink)
the allocation, preserving the first `min current new` cells. -/
def ThinArrayPtr.realloc {α : Type} (t : ThinArrayPtr α)
    (_currentCapacity newCapacity : Nat) : ThinArrayPtr α :=
  ⟨t.cells.take newCapacity ++
    List.replicate (newCapacity - t.cells.length) none⟩

/-- `*get_unchecked_mut(i) = v`: write cell `i`.  Out of bounds is UB (`none`). -/
def ThinArrayPtr.writeAt {α : Type} (t : ThinArrayPtr α) (i : Nat) (v : α) :
    Option (ThinArrayPtr α) :=
  if i < t.cells.length then some ⟨t.cells.set i (some v)⟩ else none

/-- `get_unchecked(i)`: read cell `i`.  Out of bounds or uninitialized is UB,
modelled as `none`. -/
def ThinArrayPtr.get_unchecked {α : Type} (t : ThinArrayPtr α) (i : Nat) : Option α :=
  t.cells.getD i none

/-- `u32::next_power_of_two`: the least power of two that is `≥ n` (`1` for
`n = 0`).  Written with structural fuel (`2 ^ n ≥ n`, so `n` doublings from
`1` always suffice) so that it evaluates by kernel reduction. -/
def nextPow2Go (n : Nat) : Nat → Nat → Nat
  | 0, power => power
  | fuel + 1, power => if power < n then nextPow2Go n fuel (power * 2) else power

def nextPow2 (n : Nat) : Nat := nextPow2Go n n 1

/-- `u32::MAX` -/
def u32Max : Nat := 4294967295

/-- `Vec32<T>` (`storage/vec32.rs`): a vector with `u32` length/capacity
fields backed by a `ThinArrayPtr`. -/
structure Vec32 (α : Type) where
  data : ThinArrayPtr α
  length : Nat
  capacity : Nat
deriving DecidableEq, Repr

/-- `Vec32::new` -/
def Vec32.new {α : Type} : Vec32 α := ⟨ThinArrayPtr.empty, 0, 0⟩

/-- `Vec32::reserve_for_push` (vec32.rs lines 101-117): when full, allocate 1
cell if empty, otherwise reallocate to `capacity.next_power_of_two()`. -/
def Vec32.reserve_for_push {α : Type} (v : Vec32 α) : Vec32 α :=
  if v.length = v.capacity then
    if v.length = 0 then
      { v with data := ThinArrayPtr.alloc 1, capacity := 1 }
    else
      let new_capacity := nextPow2 v.capacity
      { v with data := v.data.realloc v.capacity new_capacity,
               capacity := new_capacity }
  else v

/-- `Vec32::push` (vec32.rs lines 71-75): reserve, write at index `length`
(UB if out of bounds of the allocation), then `length.checked_add(1).unwrap()`
(panics on `u32` overflow).  UB and panic are both modelled as `none`. -/
def Vec32.push {α : Type} (v : Vec32 α) (value : α) : Option (Vec32 α) :=
  let v1 := v.reserve_for_push
  (v1.data.writeAt v1.length value).bind fun d =>
    if v1.length + 1 ≤ u32Max then
      some { v1 with data := d, length := v1.length + 1 }
    else none

/-- `Vec32::get` (vec32.rs lines 41-46). -/
def Vec32.get {α : Type} (v : Vec32 α) (index : Nat) : Option α :=
  if index < v.length then v.data.get_unchecked index else none

/-! ## Resource storage (`storage/resource.rs`)

`BlobBox` is a type-erased singleton slot; we model its contents as an
`Option α`.  `ResourceData` adds the change-detection ticks (`Tick` is a
`u32` world counter, modelled as `Nat`) and the scheduler id. -/

structure ComponentTicks where
  added : Nat
  changed : Nat
deriving DecidableEq, Repr

structure ResourceData (α : Type) where
  data : Option α
  added_tick : Nat
  changed_tick : Nat
  id : Nat
deriving DecidableEq, Repr

/-- `ResourceData::is_present` -/
def ResourceData.is_present {α : Type} (r : ResourceData α) : Bool :=
  r.data.isSome

/-- `ResourceData::insert` (resource.rs lines 72-81): if a value is present,
`BlobBox::replace` drops the old value and stores the new one, otherwise
`BlobBox::initialize` stores the first value; then both ticks are set to
`change_tick`. -/
def ResourceData.insert {α : Type} (r : ResourceData α) (value : α)
    (change_tick : Nat) : ResourceData α :=
  let d := if r.is_present then some value else some value
  { r with data := d, added_tick := change_tick, changed_tick := change_tick }

/-- `ResourceData::insert_with_ticks` (resource.rs lines 94-106): same store
logic, but both ticks come from the supplied `ComponentTicks`. -/
def ResourceData.insert_with_ticks {α : Type} (r : ResourceData α) (value : α)
    (change_ticks : ComponentTicks) : ResourceData α :=
  let d := if r.is_present then some value else some value
  { r with data := d, added_tick := change_ticks.added,
           changed_tick := change_ticks.changed }

/-! ## Archetypes (`archetype.rs`)

Identifier types (`ArchetypeId`, `ComponentId`, `TableId`,
`ArchetypeComponentId`) are dense integer handles; we model them all as `Nat`.
`ArchetypeId::new` / `ArchetypeComponentId::new` assert the index is below
`u32::MAX` (the `NonMaxU32` niche); exceeding it panics, modelled as `none`
where it matters. -/

structure ArchetypeEntity where
  entity : Nat
  table_row : Nat
deriving DecidableEq, Repr

instance : Inhabited ArchetypeEntity := ⟨⟨0, 0⟩⟩

structure ArchetypeSwapRemoveResult where
  swapped_entity : Option Nat
  table_row : Nat
deriving DecidableEq, Repr

/-- An `Archetype` (archetype.rs lines 196-202).  The source stores the
per-component info in a sparse set keyed by `ComponentId`; since
`Archetype::new` receives the table components and sparse-set components as
two disjoint `(ComponentId, ArchetypeComponentId)` iterators, we keep those
two association lists directly. -/
structure Archetype where
  id : Nat
  table_id : Nat
  table_comps : List (Nat × Nat)
  sparse_comps : List (Nat × Nat)
  entities : List ArchetypeEntity
deriving DecidableEq, Repr

/-- `Archetype::new` (archetype.rs lines 205-240): a fresh archetype has no
entities. -/
def Archetype.new (id table_id : Nat) (table_comps sparse_comps : List (Nat × Nat)) :
    Archetype :=
  ⟨id, table_id, table_comps, sparse_comps, []⟩

/-- `Vec::swap_remove(i)`: return element `i`; move the last element into
position `i` and pop.  Panics (`none`) when `i` is out of bounds. -/
def listSwapRemove {α : Type} (l : List α) (i : Nat) : Option (α × List α) :=
  match l.get? i, l.getLast? with
  | some x, some last => some (x, (l.set i last).dropLast)
  | _, _ => none

/-- `Archetype::swap_remove(index)` (archetype.rs lines 316-327): records
whether `index` was the last slot, swap-removes the entity, and reports the
entity now occupying `index` (if any) so its location can be fixed up.
The source reads `self.entities[index]` after the removal. -/
def Archetype.swap_remove (a : Archetype) (index : Nat) :
    Option (ArchetypeSwapRemoveResult × Archetype) :=
  let is_last := index = a.entities.length - 1
  (listSwapRemove a.entities index).map fun p =>
    ({ swapped_entity :=
         if is_last then none else (p.2.get? index).map (fun ae => ae.entity),
       table_row := p.1.table_row },
     { a with entities := p.2 })

/-- The `HashMap<ArchetypeIdentity, ArchetypeId>` of `Archetypes`, modelled as
an association list from `(table_components, sparse_set_components)` keys to
archetype ids.  `lookupAssoc` is hash-map lookup; insertion of a fresh key
prepends. -/
def lookupAssoc (m : List ((List Nat × List Nat) × Nat)) (k : List Nat × List Nat) :
    Option Nat :=
  match m with
  | [] => none
  | kv :: rest => if kv.1 = k then some kv.2 else lookupAssoc rest k

/-- `Archetypes` (archetype.rs lines 446-450). -/
structure Archetypes where
  archetypes : List Archetype
  archetype_component_count : Nat
  archetype_ids : List ((List Nat × List Nat) × Nat)
deriving DecidableEq, Repr

/-- `Archetypes::generation` (archetype.rs lines 465-468): the generation is
the current number of archetypes. -/
def Archetypes.generation (s : Archetypes) : Nat :=
  s.archetypes.length

/-- `Archetypes::get_id_or_insert` (archetype.rs lines 525-562).  Looks the
identity `(table_components, sparse_set_components)` up in the map; on a miss
it allocates `ArchetypeId::new(archetypes.len())` (panics — `none` — if that
index would reach `u32::MAX`), hands out fresh `ArchetypeComponentId`s for the
table components and then the sparse-set components, and appends the new
archetype.  Both component lists are required (by the source's doc comment)
to be sorted. -/
def Archetypes.get_id_or_insert (s : Archetypes) (table_id : Nat)
    (table_components sparse_set_components : List Nat) :
    Option (Nat × Archetypes) :=
  let key := (table_components, sparse_set_components)
  match lookupAssoc s.archetype_ids key with
  | some id => some (id, s)
  | none =>
    if s.archetypes.length < u32Max then
      let id := s.archetypes.length
      let table_start := s.archetype_component_count
      let count1 := table_start + table_components.length
      let table_acids := List.range' table_start table_components.length
      let sparse_acids := List.range' count1 sparse_set_components.length
      let count2 := count1 + sparse_set_components.length
      let arch := Archetype.new id table_id
        (table_components.zip table_acids) (sparse_set_components.zip sparse_acids)
      some (id, ⟨s.archetypes ++ [arch], count2, (key, id) :: s.archetype_ids⟩)
    else none

/-- `Archetypes::clear_entities` (archetype.rs lines 569-573). -/
def Archetypes.clear_entities (s : Archetypes) : Archetypes :=
  { s with archetypes := s.archetypes.map fun a => { a with entities := [] } }

/-- The state before `Archetypes::default` inserts the empty archetype. -/
def Archetypes.emptyState : Archetypes := ⟨[], 0, []⟩

/-- `Archetypes::default` (archetype.rs lines 452-462): starts empty and
inserts the empty archetype (`TableId::empty()` is table `0`). -/
def Archetypes.defaultState : Archetypes :=
  match Archetypes.emptyState.get_id_or_insert 0 [] [] with
  | some p => p.2
  | none => Archetypes.emptyState

/-- Well-formedness of an `Archetypes` value, maintained by construction in
the source: every id stored in the identity map indexes an existing
archetype, and no two identities map to the same id. -/
def Archetypes.WF (s : Archetypes) : Prop :=
  (∀ kv ∈ s.archetype_ids, kv.2 < s.archetypes.length) ∧
    (s.archetype_ids.map Prod.snd).Nodup

instance (s : Archetypes) : Decidable s.WF := by
  unfold Archetypes.WF
  infer_instance

/-! ## Edges (`archetype.rs` lines 109-169)

`SparseArray<BundleId, V>` is a `Vec<Option<V>>`; insertion resizes with
`None` padding up to the index, then stores.  `Edges` keeps three such
arrays, and the world populates them lazily via an arbitrary interleaving of
the three insert operations, modelled by `EdgeOp` traces. -/

def SparseArray.get {α : Type} (s : List (Option α)) (i : Nat) : Option α :=
  s.getD i none

def SparseArray.insert {α : Type} (s : List (Option α)) (i : Nat) (v : α) :
    List (Option α) :=
  (s ++ List.replicate (i + 1 - s.length) none).set i (some v)

inductive ComponentStatus where
  | Added
  | Mutated
deriving DecidableEq, Repr

structure AddBundle where
  archetype_id : Nat
  bundle_status : List ComponentStatus
deriving DecidableEq, Repr

structure Edges where
  add_bundle : List (Option AddBundle)
  remove_bundle : List (Option (Option Nat))
  remove_bundle_intersection : List (Option (Option Nat))
deriving DecidableEq, Repr

/-- `Edges::default` -/
def Edges.init : Edges := ⟨[], [], []⟩

def Edges.get_add_bundle (e : Edges) (bundle_id : Nat) : Option AddBundle :=
  SparseArray.get e.add_bundle bundle_id

def Edges.insert_add_bundle (e : Edges) (bundle_id : Nat) (archetype_id : Nat)
    (bundle_status : List ComponentStatus) : Edges :=
  { e with add_bundle :=
      SparseArray.insert e.add_bundle bundle_id ⟨archetype_id, bundle_status⟩ }

def Edges.get_remove_bundle (e : Edges) (bundle_id : Nat) : Option (Option Nat) :=
  SparseArray.get e.remove_bundle bundle_id

def Edges.insert_remove_bundle (e : Edges) (bundle_id : Nat)
    (archetype_id : Option Nat) : Edges :=
  { e with remove_bundle := SparseArray.insert e.remove_bundle bundle_id archetype_id }

def Edges.get_remove_bundle_intersection (e : Edges) (bundle_id : Nat) :
    Option (Option Nat) :=
  SparseArray.get e.remove_bundle_intersection bundle_id

def Edges.insert_remove_bundle_intersection (e : Edges) (bundle_id : Nat)
    (archetype_id : Option Nat) : Edges :=
  { e with remove_bundle_intersection :=
      SparseArray.insert e.remove_bundle_intersection bundle_id archetype_id }

/-- One edge-cache population step performed by the world. -/
inductive EdgeOp where
  | addB (bundle_id : Nat) (archetype_id : Nat) (status : List ComponentStatus)
  | remB (bundle_id : Nat) (archetype_id : Option Nat)
  | remIB (bundle_id : Nat) (archetype_id : Option Nat)
deriving DecidableEq, Repr

def applyEdgeOp (e : Edges) : EdgeOp → Edges
  | .addB b a st => e.insert_add_bundle b a st
  | .remB b a => e.insert_remove_bundle b a
  | .remIB b a => e.insert_remove_bundle_intersection b a

/-- The edges of an archetype after a history `ops` of cache insertions. -/
def runEdgeOps (ops : List EdgeOp) : Edges :=
  ops.foldl applyEdgeOp Edges.init

/-- Does this operation insert an add-bundle edge for bundle `b`? -/
def EdgeOp.isAddFor (b : Nat) : EdgeOp → Bool
  | .addB b2 _ _ => b = b2
  | _ => false

/-- Does this operation insert a remove-bundle edge for bundle `b`? -/
def EdgeOp.isRemFor (b : Nat) : EdgeOp → Bool
  | .remB b2 _ => b = b2
  | _ => false

/-- Does this operation insert a remove-bundle-intersection edge for `b`? -/
def EdgeOp.isRemIFor (b : Nat) : EdgeOp → Bool
  | .remIB b2 _ => b = b2
  | _ => false

/-! ## Query iteration (`query/iter.rs`)

`QueryIterationCursor` (iter.rs lines 472-673) walks a precomputed list of
matched table ids (dense mode) or archetype ids (sparse mode); within the
current table/archetype it walks an entity list, applying the per-row filter
and fetching items.  Both modes have the same control flow; they differ only
in the entity element type `E` (`Entity` vs `ArchetypeEntity`) and in which
row is passed to `filter_fetch`/`fetch`: the in-batch index (dense) or the
stored `table_row` (sparse).  We model this with a parameter
`rowOf : E → Nat → Nat` mapping an entity and its in-batch index to the row
used by fetches; a query item is modelled by the `(entity, row)` pair passed
to `Q::fetch`.  `tables : Nat → List E` resolves an id from the matched list
to its entity list (`table.entities()` / `archetype.entities()`).

The in-batch loop is written with the explicit counter
`current_len - current_index` as structural fuel (the loop advances
`current_index` towards `current_len`, so under the cursor invariant
`current_index ≤ current_len = entities.length` this is exactly the number
of remaining slots); the batch-pulling loop is structural on the remaining
id list. -/

structure Cursor (E : Type) where
  ids : List Nat
  entities : List E
  current_len : Nat
  current_index : Nat
deriving DecidableEq, Repr

instance {E : Type} : Inhabited (Cursor E) := ⟨⟨[], [], 0, 0⟩⟩

/-- The in-batch half of `QueryIterationCursor::next`: starting at index
`idx`, skip rows rejected by the filter and return the first accepted
`(entity, row)` item together with the index just past it; `none` when the
batch is exhausted.  Rows are read with `get_unchecked`; an out-of-bounds
read (impossible under the cursor invariant) ends the batch. -/
def inBatchScan {E : Type} (rowOf : E → Nat → Nat) (f : E → Nat → Bool)
    (ents : List E) : Nat → Nat → Option (E × Nat × Nat)
  | _, 0 => none
  | idx, fuel + 1 =>
    match ents.get? idx with
    | none => none
    | some e =>
      if f e (rowOf e idx) then some (e, rowOf e idx, idx + 1)
      else inBatchScan rowOf f ents (idx + 1) fuel

/-- `QueryIterationCursor::next` (iter.rs lines 591-672), with the cursor
state unpacked: scan the current batch; when it is exhausted pull the next
id from the matched-id list, bind the fetch/filter state to its table or
archetype (`set_table` / `set_archetype`), reset the position, and continue;
when no ids remain, return no item (the cursor has then consumed its id list
and its position equals its length). -/
def cursorNextGo {E : Type} (tables : Nat → List E) (rowOf : E → Nat → Nat)
    (f : E → Nat → Bool) :
    List Nat → List E → Nat → Nat → Option (E × Nat) × Cursor E
  | ids, ents, len, idx =>
    match inBatchScan rowOf f ents idx (len - idx) with
    | some r => (some (r.1, r.2.1), ⟨ids, ents, len, r.2.2⟩)
    | none =>
      match ids with
      | [] => (none, ⟨[], ents, len, len⟩)
      | id :: rest =>
        cursorNextGo tables rowOf f rest (tables id) (tables id).length 0

def cursorNext {E : Type} (tables : Nat → List E) (rowOf : E → Nat → Nat)
    (f : E → Nat → Bool) (c : Cursor E) : Option (E × Nat) × Cursor E :=
  cursorNextGo tables rowOf f c.ids c.entities c.current_len c.current_index

/-- Iterated cursor calls: the result of the `n`-th subsequent call to
`next` after the state `c` (so `cursorIterate 0 c` is the next call). -/
def cursorIterate {E : Type} (tables : Nat → List E) (rowOf : E → Nat → Nat)
    (f : E → Nat → Bool) : Nat → Cursor E → Option (E × Nat) × Cursor E
  | 0, c => cursorNext tables rowOf f c
  | n + 1, c => cursorIterate tables rowOf f n (cursorNext tables rowOf f c).2

/-- `QueryIterationCursor::peek_last` (iter.rs lines 565-582): refetch the
item returned by the most recent `next` call of this cursor. -/
def peek_last {E : Type} (rowOf : E → Nat → Nat) (c : Cursor E) :
    Option (E × Nat) :=
  if 0 < c.current_index then
    (c.entities.get? (c.current_index - 1)).map
      (fun e => (e, rowOf e (c.current_index - 1)))
  else none

/-- `QueryIterationCursor::init` (iter.rs lines 524-561): full matched-id
list, empty current batch. -/
def initCursor {E : Type} (ids : List Nat) : Cursor E := ⟨ids, [], 0, 0⟩

/-- `QueryIterationCursor::init_empty` (iter.rs lines 508-522): like `init`
but with an empty id list. -/
def initEmptyCursor {E : Type} : Cursor E := ⟨[], [], 0, 0⟩

/-- `QueryCombinationIter::new` (iter.rs lines 308-344): cursor 0 is `init`,
cursors 1..K are `init_empty`. -/
def combinationCursors {E : Type} (K : Nat) (ids : List Nat) : List (Cursor E) :=
  match K with
  | 0 => []
  | k + 1 => initCursor ids :: List.replicate k initEmptyCursor

/-- Result of the inner propagation loop of
`QueryCombinationIter::fetch_next_aliased_unchecked`: either every cursor up
to `K-1` was rebound and advanced (`ok`), or some clone exhausted (`fail`),
in both cases with the mutated cursor array. -/
inductive InnerRes (E : Type) where
  | ok (cs : List (Cursor E))
  | fail (cs : List (Cursor E))
deriving DecidableEq, Repr

/-- The inner `for j in (i + 1)..K` loop (iter.rs lines 362-369):
`cursors[j] = cursors[j - 1].clone_cursor()` then advance `cursors[j]`;
stop with `fail` when the advanced clone is exhausted.  `js` is the list of
remaining loop indices `[i+1, ..., K-1]`. -/
def innerFor {E : Type} (tables : Nat → List E) (rowOf : E → Nat → Nat)
    (f : E → Nat → Bool) (cs : List (Cursor E)) : List Nat → InnerRes E
  | [] => .ok cs
  | j :: js =>
    match cursorNext tables rowOf f (cs.getD (j - 1) default) with
    | (some _, c2) => innerFor tables rowOf f (cs.set j c2) js
    | (none, c2) => .fail (cs.set j c2)

/-- The outer `'outer: for i in (0..K).rev()` loop (iter.rs lines 358-375):
advance cursor `i`; on success propagate right via `innerFor` (a propagation
failure continues the outer loop when `i > 0` and returns no combination at
`i = 0`); on exhaustion continue the outer loop when `i > 0` and return no
combination at `i = 0`.  `is` is the list of remaining indices
`[i, i-1, ..., 0]`; the pair returned is (combination found, final cursor
array). -/
def outerFor {E : Type} (tables : Nat → List E) (rowOf : E → Nat → Nat)
    (f : E → Nat → Bool) (K : Nat) (cs : List (Cursor E)) :
    List Nat → Option (List (Cursor E)) × List (Cursor E)
  | [] => (none, cs)
  | i :: is =>
    match cursorNext tables rowOf f (cs.getD i default) with
    | (some _, c2) =>
      match innerFor tables rowOf f (cs.set i c2) (List.range' (i + 1) (K - (i + 1))) with
      | .ok cs2 => (some cs2, cs2)
      | .fail cs2 =>
        match i with
        | 0 => (none, cs2)
        | _ + 1 => outerFor tables rowOf f K cs2 is
    | (none, c2) =>
      match i with
      | 0 => (none, cs.set i c2)
      | _ + 1 => outerFor tables rowOf f K (cs.set i c2) is

/-- `QueryCombinationIter::fetch_next_aliased_unchecked` (iter.rs lines
352-385): `K = 0` yields nothing; otherwise run the outer loop and, on
success, collect `peek_last().unwrap()` from every cursor (the `unwrap`
panic is modelled by the `Option.mapM`; it is proved unreachable on the
states arising from iteration). -/
def fetch_next {E : Type} (tables : Nat → List E) (rowOf : E → Nat → Nat)
    (f : E → Nat → Bool) (cs : List (Cursor E)) :
    Option (List (E × Nat)) × List (Cursor E) :=
  if cs.length = 0 then (none, cs)
  else
    match outerFor tables rowOf f cs.length cs ((List.range cs.length).reverse) with
    | (some cs2, _) => (cs2.mapM (peek_last rowOf), cs2)
    | (none, st) => (none, st)

/-- Collect the combinations produced by repeated `fetch_next` calls, up to
`fuel` calls, stopping at the first call that yields nothing. -/
def collectOutputs {E : Type} (tables : Nat → List E) (rowOf : E → Nat → Nat)
    (f : E → Nat → Bool) : Nat → List (Cursor E) → List (List (E × Nat))
  | 0, _ => []
  | fuel + 1, cs =>
    match fetch_next tables rowOf f cs with
    | (some items, cs2) => items :: collectOutputs tables rowOf f fuel cs2
    | (none, _) => []

/-- The result of the `n`-th subsequent `fetch_next` call after state `cs`. -/
def fetchIterate {E : Type} (tables : Nat → List E) (rowOf : E → Nat → Nat)
    (f : E → Nat → Bool) : Nat → List (Cursor E) →
    Option (List (E × Nat)) × List (Cursor E)
  | 0, cs => fetch_next tables rowOf f cs
  | n + 1, cs => fetchIterate tables rowOf f n (fetch_next tables rowOf f cs).2

/-- The `(entity, row)` items of a batch, starting at in-batch index `n`. -/
def withRows {E : Type} (rowOf : E → Nat → Nat) : Nat → List E → List (E × Nat)
  | _, [] => []
  | n, e :: es => (e, rowOf e n) :: withRows rowOf (n + 1) es

def passItem {E : Type} (f : E → Nat → Bool) (it : E × Nat) : Bool :=
  f it.1 it.2

/-- The stream of filter-accepted items contributed by an id list: the
visiting order of a single cursor. -/
def streamOf {E : Type} (tables : Nat → List E) (rowOf : E → Nat → Nat)
    (f : E → Nat → Bool) (ids : List Nat) : List (E × Nat) :=
  (ids.flatMap fun id => withRows rowOf 0 (tables id)).filter (passItem f)

/-- The items a cursor state has yet to produce. -/
def futureOf {E : Type} (tables : Nat → List E) (rowOf : E → Nat → Nat)
    (f : E → Nat → Bool) (c : Cursor E) : List (E × Nat) :=
  (withRows rowOf c.current_index (c.entities.drop c.current_index)).filter (passItem f)
    ++ streamOf tables rowOf f c.ids

/-- The cursor invariant: `current_len` is the length of the bound batch and
the position does not exceed it. -/
def WFc {E : Type} (c : Cursor E) : Prop :=
  c.current_len = c.entities.length ∧ c.current_index ≤ c.current_len

/-! ## `QueryCombinationIter::size_hint` (iter.rs lines 414-450)

`usize` arithmetic: `checked_mul` detects 64-bit overflow.  `K` is the
combination size, `max_size` the total entity count over matched archetypes,
and `archetype_query` is `F::IS_ARCHETYPAL && Q::IS_ARCHETYPAL` (no per-row
filtering). -/

def usizeMax : Nat := 18446744073709551615

def checked_mul (a b : Nat) : Option Nat :=
  if a * b ≤ usizeMax then some (a * b) else none

/-- The local `choose(n, k)` of `size_hint` (iter.rs lines 437-442):
`ks.zip(ns).try_fold(1, |acc, (k, n)| acc.checked_mul(n)? / k)` with
`ks = 1..=k` and `ns = (n - k + 1..=n).rev()`. -/
def chooseImpl (n k : Nat) : Option Nat :=
  ((List.range' 1 k).zip ((List.range' (n - k + 1) k).reverse)).foldlM
    (fun acc kn => (checked_mul acc kn.2).map (fun m => m / kn.1)) 1

/-- `QueryCombinationIter::size_hint` (iter.rs lines 414-450) as a function
of `K`, `max_size` and `archetype_query`. -/
def combinationSizeHint (K max_size : Nat) (archetype_query : Bool) :
    Nat × Option Nat :=
  if K = 0 then (0, some 0)
  else if max_size < K then (0, some 0)
  else if max_size = K then (1, some 1)
  else
    let smallest := min K (max_size - K)
    let max_combinations := chooseImpl max_size smallest
    let known_max := max_combinations.getD usizeMax
    let min_combinations := if archetype_query then known_max else 0
    (min_combinations, max_combinations)

/-! ## Reference combination enumeration

`combos l k` lists the `k`-element sublists of `l` in lexicographic order of
positions; it is the specification the combination iterator is compared
against. -/

def combos {α : Type} : List α → Nat → List (List α)
  | _, 0 => [[]]
  | [], _ + 1 => []
  | x :: xs, k + 1 => ((combos xs k).map fun c => x :: c) ++ combos xs (k + 1)

/-- The lexicographic successor of a position combination inside `[0, N)`:
find the rightmost position that can still advance (leaving room for all
positions to its right) and restart everything to its right consecutively
after it.  This is the pure description of one `fetch_next` carry step. -/
def comboSucc (N : Nat) : List Nat → Option (List Nat)
  | [] => none
  | p :: rest =>
    match comboSucc N rest with
    | some rest2 => some (p :: rest2)
    | none =>
      if p + (rest.length + 1) < N then
        some (List.range' (p + 1) (rest.length + 1))
      else none

/-- A strictly increasing list of `k` positions below `N`: the combinations
the iterator is expected to produce. -/
def validCombo (N K : Nat) (ps : List Nat) : Prop :=
  ps.length = K ∧ ps.Chain' (fun a b => a < b) ∧ ∀ p ∈ ps, p < N

/-- The combination produced by a successful carry step of the combination
iterator that advanced cursor `istar`: the positions below `istar` are kept
and the rest restart consecutively after the advanced position. -/
def succAt (a : List Nat) (istar K : Nat) : List Nat :=
  a.take istar ++ List.range' (a.getD istar 0 + 1) (K - istar)

/-- Abstraction of one cursor: a well-formed state whose future item list is
the suffix of the full stream `S` starting at position `k`. -/
def Sfx {E : Type} (tables : Nat → List E) (rowOf : E → Nat → Nat)
    (f : E → Nat → Bool) (S : List (E × Nat)) (c : Cursor E) (k : Nat) : Prop :=
  WFc c ∧ k ≤ S.length ∧ futureOf tables rowOf f c = S.drop k

/-- Abstraction of the combination iterator's cursor array: cursor `j` sits
at stream position `ks j`. -/
def AbsState {E : Type} (tables : Nat → List E) (rowOf : E → Nat → Nat)
    (f : E → Nat → Bool) (S : List (E × Nat)) (cs : List (Cursor E))
    (ks : List Nat) : Prop :=
  cs.length = ks.length ∧
  ∀ j, j < cs.length →
    Sfx tables rowOf f S (cs.getD j default) (ks.getD j 0)

/-- The canonical state of the combination iterator after it has emitted the
combination `ps`: cursor `m` has consumed the stream up to and including
position `ps m`, and its `peek_last` refetches exactly that item. -/
def Canon {E : Type} (tables : Nat → List E) (rowOf : E → Nat → Nat)
    (f : E → Nat → Bool) (S : List (E × Nat)) (cs : List (Cursor E))
    (ps : List Nat) : Prop :=
  AbsState tables rowOf f S cs (ps.map fun p => p + 1) ∧
  cs.length = ps.length ∧
  ∀ m, m < cs.length →
    peek_last rowOf (cs.getD m default) = S[ps.getD m 0]?

/-! # Theorems -/

/-! ## Generic list helpers -/

theorem getElem?_dropLast {α : Type} (l : List α) (j : Nat) (h : j < l.length - 1) :
    l.dropLast[j]? = l[j]? := by
  rw [List.dropLast_eq_take]
  exact List.getElem?_take_of_lt h

/-! ## C8: resource insertion -/

/-- **C8**: `ResourceData::insert` stores the supplied value whether or not a
value was already present (initialize on first write, replace otherwise) and
stamps both the added tick and the changed tick to the supplied change tick;
`ResourceData::insert_with_ticks` does the same but stamps both ticks from
the explicitly supplied `ComponentTicks`.  Neither changes the slot's
`ArchetypeComponentId`. -/
theorem ResourceData.insert_spec : ∀ (α : Type) (r : ResourceData α) (v : α)
    (t : Nat) (ticks : ComponentTicks),
    ((r.insert v t).data = some v ∧
      (r.insert v t).added_tick = t ∧
      (r.insert v t).changed_tick = t ∧
      (r.insert v t).id = r.id) ∧
    ((r.insert_with_ticks v ticks).data = some v ∧
      (r.insert_with_ticks v ticks).added_tick = ticks.added ∧
      (r.insert_with_ticks v ticks).changed_tick = ticks.changed ∧
      (r.insert_with_ticks v ticks).id = r.id) := by
  intro α r v t ticks
  simp [ResourceData.insert, ResourceData.insert_with_ticks]

/-! ## C6: `Vec32::push` growth bug

The claim says `push` grows the backing storage when `length` has reached
`capacity` before writing.  The code computes the new capacity as
`capacity.next_power_of_two()`, which equals `capacity` whenever the current
capacity is already a power of two — in particular after the very first
push, when `capacity = 1`.  The second push therefore reallocates `1 → 1`
and writes out of bounds of the allocation. -/

/-- **C6** (failing input): pushing twice onto `Vec32::new`.  The first push
succeeds (allocating one cell); the second push finds `length = capacity
= 1`, computes `next_power_of_two 1 = 1`, fails to grow the buffer, and
performs an out-of-bounds write (modelled by `none`), instead of growing the
storage and preserving `length ≤ capacity` as the claim requires. -/
theorem Vec32.push_push_out_of_bounds :
    nextPow2 1 = 1 ∧
    Vec32.new.push (1 : Nat) = some ⟨⟨[some 1]⟩, 1, 1⟩ ∧
    (Vec32.new.push (1 : Nat)).bind (fun v => v.push 2) = none := by
  refine ⟨rfl, by decide, by decide⟩

/-! ## C4: `Archetype::swap_remove` -/

/-- The list-level core of `swap_remove`: `swap_remove(i)` on a list with a
valid index `i` and last element `y` drops one element, keeps every index
other than `i`, and puts `y` at `i` when `i` was not the last index. -/
theorem listSwapRemove_spec {α : Type} (l : List α) (i : Nat) (x y : α)
    (hx : l[i]? = some x) (hy : l.getLast? = some y) :
    ∃ m, listSwapRemove l i = some (x, m) ∧
      m.length = l.length - 1 ∧
      (∀ j, j < l.length - 1 → j ≠ i → m[j]? = l[j]?) ∧
      (i < l.length - 1 → m[i]? = some y) := by
  have hx2 : l.get? i = some x := by rw [List.get?_eq_getElem?]; exact hx
  refine ⟨(l.set i y).dropLast, ?_, ?_, ?_, ?_⟩
  · simp only [listSwapRemove, hx2, hy]
  · simp [List.length_dropLast, List.length_set]
  · intro j hj hji
    rw [getElem?_dropLast _ _ (by simpa [List.length_set] using hj)]
    exact List.getElem?_set_ne (fun hij => hji hij.symm)
  · intro hilt
    rw [getElem?_dropLast _ _ (by simpa [List.length_set] using hilt)]
    rw [List.getElem?_set_self', hx]
    rfl

/-- **C4**: for an archetype of length `n` and a valid index `i`,
`swap_remove i` succeeds, returns the table row of the entity at `i`, and
shrinks the entity list by one.  If `i = n - 1` it reports no swapped entity
and every remaining entity keeps its index; otherwise it reports the entity
formerly at index `n - 1`, which now sits at index `i`, and every other
entity keeps its index. -/
theorem Archetype.swap_remove_spec (a : Archetype) (i : Nat)
    (h : i < a.entities.length) :
    ∃ r a2, a.swap_remove i = some (r, a2) ∧
      r.table_row = (a.entities.getD i default).table_row ∧
      a2.entities.length = a.entities.length - 1 ∧
      (i = a.entities.length - 1 →
        r.swapped_entity = none ∧
        ∀ j, j < a2.entities.length →
          a2.entities.getD j default = a.entities.getD j default) ∧
      (i ≠ a.entities.length - 1 →
        r.swapped_entity =
          some (a.entities.getD (a.entities.length - 1) default).entity ∧
        a2.entities.getD i default =
          a.entities.getD (a.entities.length - 1) default ∧
        ∀ j, j < a2.entities.length → j ≠ i →
          a2.entities.getD j default = a.entities.getD j default) := by
  obtain ⟨x, hx⟩ : ∃ x, a.entities[i]? = some x := by
    rw [List.getElem?_eq_getElem h]; exact ⟨_, rfl⟩
  have hlen0 : 0 < a.entities.length := Nat.lt_of_le_of_lt (Nat.zero_le _) h
  obtain ⟨y, hy⟩ : ∃ y, a.entities.getLast? = some y := by
    rw [List.getLast?_eq_getElem?,
      List.getElem?_eq_getElem (Nat.sub_lt hlen0 Nat.one_pos)]
    exact ⟨_, rfl⟩
  have hylast : a.entities[a.entities.length - 1]? = some y := by
    rw [← List.getLast?_eq_getElem?]; exact hy
  obtain ⟨m, hm, hmlen, hmne, hmi⟩ := listSwapRemove_spec a.entities i x y hx hy
  refine ⟨{ swapped_entity :=
      if i = a.entities.length - 1 then none
      else (m.get? i).map (fun ae => ae.entity), table_row := x.table_row },
    { a with entities := m }, ?_, ?_, hmlen, ?_, ?_⟩
  · simp only [Archetype.swap_remove, hm]; rfl
  · simp [List.getD_eq_getElem?_getD, hx]
  · intro hi
    refine ⟨by simp [hi], ?_⟩
    intro j hj
    rw [hmlen] at hj
    simp [List.getD_eq_getElem?_getD, hmne j hj (by omega)]
  · intro hi
    have hilt : i < a.entities.length - 1 := by omega
    have hgi := hmi hilt
    refine ⟨?_, ?_, ?_⟩
    · simp [hi, List.get?_eq_getElem?, hgi, List.getD_eq_getElem?_getD, hylast]
    · simp [List.getD_eq_getElem?_getD, hgi, hylast]
    · intro j hj hji
      rw [hmlen] at hj
      simp [List.getD_eq_getElem?_getD, hmne j hj hji]

/-- **C4 witness**: `swap_remove 0` on a two-entity archetype. -/
theorem Archetype.swap_remove_spec_witness :
    (0 < (Archetype.new 1 0 [] []).entities.length + 2) ∧
      ∃ r a2,
        ({ Archetype.new 1 0 [] [] with
            entities := [⟨5, 0⟩, ⟨6, 1⟩] } : Archetype).swap_remove 0 =
          some (r, a2) ∧
        r.table_row = 0 ∧ r.swapped_entity = some 6 ∧
        a2.entities = [⟨6, 1⟩] := by
  refine ⟨by decide, ?_⟩
  obtain ⟨r, a2, h1, h2, -, -, h5⟩ :=
    Archetype.swap_remove_spec
      ({ Archetype.new 1 0 [] [] with entities := [⟨5, 0⟩, ⟨6, 1⟩] }) 0
      (by decide)
  obtain ⟨hs, -, -⟩ := h5 (by decide)
  refine ⟨r, a2, h1, by simpa using h2, by simpa using hs, ?_⟩
  have := congrArg (fun o => o.map (fun p : ArchetypeSwapRemoveResult × Archetype => p.2.entities)) h1
  simp [Archetype.swap_remove, listSwapRemove] at this
  simpa using this.symm

/-! ## C9: lazily populated edge caches -/

theorem SparseArray.get_insert_self {α : Type} (s : List (Option α)) (i : Nat)
    (v : α) : SparseArray.get (SparseArray.insert s i v) i = some v := by
  have hpad : i < (s ++ List.replicate (i + 1 - s.length) none).length := by
    simp [List.length_append, List.length_replicate]; omega
  obtain ⟨w, hw⟩ : ∃ w, (s ++ List.replicate (i + 1 - s.length) none)[i]? = some w := by
    rw [List.getElem?_eq_getElem hpad]; exact ⟨_, rfl⟩
  simp [SparseArray.get, SparseArray.insert, List.getD_eq_getElem?_getD,
    List.getElem?_set_self', hw]

theorem SparseArray.get_insert_ne {α : Type} (s : List (Option α)) (i j : Nat)
    (v : α) (h : i ≠ j) :
    SparseArray.get (SparseArray.insert s i v) j = SparseArray.get s j := by
  simp only [SparseArray.get, SparseArray.insert, List.getD_eq_getElem?_getD,
    List.getElem?_set_ne h]
  rcases Nat.lt_or_ge j s.length with hj | hj
  · rw [List.getElem?_append_left hj]
  · rw [List.getElem?_append_right hj, List.getElem?_eq_none hj]
    rcases Nat.lt_or_ge (j - s.length) (i + 1 - s.length) with hk | hk
    · rw [List.getElem?_eq_getElem (by simpa [List.length_replicate] using hk)]
      simp [List.getElem_replicate]
    · rw [List.getElem?_eq_none (by simpa [List.length_replicate] using hk)]

theorem runEdgeOps_add_none (ops : List EdgeOp) : ∀ (e : Edges) (b : Nat),
    ((ops.foldl applyEdgeOp e).get_add_bundle b = none ↔
      (e.get_add_bundle b = none ∧ ∀ op ∈ ops, op.isAddFor b = false)) := by
  induction ops with
  | nil => intro e b; simp
  | cons op ops ih =>
    intro e b
    rw [List.foldl_cons, ih]
    cases op with
    | addB b2 a st =>
      by_cases hb : b = b2
      · subst hb
        simp [applyEdgeOp, Edges.insert_add_bundle, Edges.get_add_bundle,
          SparseArray.get_insert_self, EdgeOp.isAddFor]
      · simp [applyEdgeOp, Edges.insert_add_bundle, Edges.get_add_bundle,
          SparseArray.get_insert_ne _ _ _ _ (fun hc => hb hc.symm),
          EdgeOp.isAddFor, hb]
    | remB b2 a =>
      simp [applyEdgeOp, Edges.insert_remove_bundle, Edges.get_add_bundle,
        EdgeOp.isAddFor]
    | remIB b2 a =>
      simp [applyEdgeOp, Edges.insert_remove_bundle_intersection,
        Edges.get_add_bundle, EdgeOp.isAddFor]

theorem runEdgeOps_rem_none (ops : List EdgeOp) : ∀ (e : Edges) (b : Nat),
    ((ops.foldl applyEdgeOp e).get_remove_bundle b = none ↔
      (e.get_remove_bundle b = none ∧ ∀ op ∈ ops, op.isRemFor b = false)) := by
  induction ops with
  | nil => intro e b; simp
  | cons op ops ih =>
    intro e b
    rw [List.foldl_cons, ih]
    cases op with
    | addB b2 a st =>
      simp [applyEdgeOp, Edges.insert_add_bundle, Edges.get_remove_bundle,
        EdgeOp.isRemFor]
    | remB b2 a =>
      by_cases hb : b = b2
      · subst hb
        simp [applyEdgeOp, Edges.insert_remove_bundle, Edges.get_remove_bundle,
          SparseArray.get_insert_self, EdgeOp.isRemFor]
      · simp [applyEdgeOp, Edges.insert_remove_bundle, Edges.get_remove_bundle,
          SparseArray.get_insert_ne _ _ _ _ (fun hc => hb hc.symm),
          EdgeOp.isRemFor, hb]
    | remIB b2 a =>
      simp [applyEdgeOp, Edges.insert_remove_bundle_intersection,
        Edges.get_remove_bundle, EdgeOp.isRemFor]

theorem runEdgeOps_remI_none (ops : List EdgeOp) : ∀ (e : Edges) (b : Nat),
    ((ops.foldl applyEdgeOp e).get_remove_bundle_intersection b = none ↔
      (e.get_remove_bundle_intersection b = none ∧
        ∀ op ∈ ops, op.isRemIFor b = false)) := by
  induction ops with
  | nil => intro e b; simp
  | cons op ops ih =>
    intro e b
    rw [List.foldl_cons, ih]
    cases op with
    | addB b2 a st =>
      simp [applyEdgeOp, Edges.insert_add_bundle,
        Edges.get_remove_bundle_intersection, EdgeOp.isRemIFor]
    | remB b2 a =>
      simp [applyEdgeOp, Edges.insert_remove_bundle,
        Edges.get_remove_bundle_intersection, EdgeOp.isRemIFor]
    | remIB b2 a =>
      by_cases hb : b = b2
      · subst hb
        simp [applyEdgeOp, Edges.insert_remove_bundle_intersection,
          Edges.get_remove_bundle_intersection, SparseArray.get_insert_self,
          EdgeOp.isRemIFor]
      · simp [applyEdgeOp, Edges.insert_remove_bundle_intersection,
          Edges.get_remove_bundle_intersection,
          SparseArray.get_insert_ne _ _ _ _ (fun hc => hb hc.symm),
          EdgeOp.isRemIFor, hb]

/-- **C9**: after any history of edge insertions starting from the fresh
edge cache, an edge lookup (`get_add_bundle`, `get_remove_bundle`,
`get_remove_bundle_intersection`) returns `none` exactly when no edge was
ever inserted for that bundle id — absence means not-yet-traversed, never
invalid; `insert_add_bundle b a s` makes `get_add_bundle b` return the
`AddBundle` with destination `a` and status `s` (likewise for the two remove
edges); and each insertion for bundle `b` leaves every lookup at any other
bundle id unchanged. -/
theorem Edges.lazy_cache_spec :
    (∀ ops b, (runEdgeOps ops).get_add_bundle b = none ↔
      ∀ op ∈ ops, op.isAddFor b = false) ∧
    (∀ ops b, (runEdgeOps ops).get_remove_bundle b = none ↔
      ∀ op ∈ ops, op.isRemFor b = false) ∧
    (∀ ops b, (runEdgeOps ops).get_remove_bundle_intersection b = none ↔
      ∀ op ∈ ops, op.isRemIFor b = false) ∧
    (∀ (e : Edges) (b a : Nat) (st : List ComponentStatus),
      (e.insert_add_bundle b a st).get_add_bundle b = some ⟨a, st⟩) ∧
    (∀ (e : Edges) (b : Nat) (a : Option Nat),
      (e.insert_remove_bundle b a).get_remove_bundle b = some a) ∧
    (∀ (e : Edges) (b : Nat) (a : Option Nat),
      (e.insert_remove_bundle_intersection b a).get_remove_bundle_intersection b
      = some a) ∧
    (∀ (e : Edges) (b b2 a : Nat) (st : List ComponentStatus), b2 ≠ b →
      ((e.insert_add_bundle b a st).get_add_bundle b2 = e.get_add_bundle b2 ∧
       (e.insert_add_bundle b a st).get_remove_bundle b2 = e.get_remove_bundle b2 ∧
       (e.insert_add_bundle b a st).get_remove_bundle_intersection b2 =
         e.get_remove_bundle_intersection b2)) ∧
    (∀ (e : Edges) (b b2 : Nat) (a : Option Nat), b2 ≠ b →
      ((e.insert_remove_bundle b a).get_add_bundle b2 = e.get_add_bundle b2 ∧
       (e.insert_remove_bundle b a).get_remove_bundle b2 = e.get_remove_bundle b2 ∧
       (e.insert_remove_bundle b a).get_remove_bundle_intersection b2 =
         e.get_remove_bundle_intersection b2)) ∧
    (∀ (e : Edges) (b b2 : Nat) (a : Option Nat), b2 ≠ b →
      ((e.insert_remove_bundle_intersection b a).get_add_bundle b2 =
         e.get_add_bundle b2 ∧
       (e.insert_remove_bundle_intersection b a).get_remove_bundle b2 =
         e.get_remove_bundle b2 ∧
       (e.insert_remove_bundle_intersection b a).get_remove_bundle_intersection b2 =
         e.get_remove_bundle_intersection b2)) := by
  refine ⟨?_, ?_, ?_, ?_, ?_, ?_, ?_, ?_, ?_⟩
  · intro ops b
    rw [runEdgeOps, runEdgeOps_add_none]
    simp [Edges.init, Edges.get_add_bundle, SparseArray.get]
  · intro ops b
    rw [runEdgeOps, runEdgeOps_rem_none]
    simp [Edges.init, Edges.get_remove_bundle, SparseArray.get]
  · intro ops b
    rw [runEdgeOps, runEdgeOps_remI_none]
    simp [Edges.init, Edges.get_remove_bundle_intersection, SparseArray.get]
  · intro e b a st
    simp [Edges.insert_add_bundle, Edges.get_add_bundle, SparseArray.get_insert_self]
  · intro e b a
    simp [Edges.insert_remove_bundle, Edges.get_remove_bundle,
      SparseArray.get_insert_self]
  · intro e b a
    simp [Edges.insert_remove_bundle_intersection,
      Edges.get_remove_bundle_intersection, SparseArray.get_insert_self]
  · intro e b b2 a st hne
    exact ⟨SparseArray.get_insert_ne _ _ _ _ (fun hc => hne hc.symm), rfl, rfl⟩
  · intro e b b2 a hne
    exact ⟨rfl, SparseArray.get_insert_ne _ _ _ _ (fun hc => hne hc.symm), rfl⟩
  · intro e b b2 a hne
    exact ⟨rfl, rfl, SparseArray.get_insert_ne _ _ _ _ (fun hc => hne hc.symm)⟩

/-- **C9 witness**: a concrete trace and a concrete frame instance. -/
theorem Edges.lazy_cache_spec_witness :
    ((runEdgeOps [EdgeOp.addB 0 7 []]).get_add_bundle 3 = none ↔
      ∀ op ∈ [EdgeOp.addB 0 7 []], op.isAddFor 3 = false) ∧
    ((3 : Nat) ≠ 0 ∧
      (Edges.init.insert_add_bundle 0 7 []).get_add_bundle 3 =
        Edges.init.get_add_bundle 3) :=
  ⟨Edges.lazy_cache_spec.1 [EdgeOp.addB 0 7 []] 3,
   ⟨by decide, (Edges.lazy_cache_spec.2.2.2.2.2.2.1 Edges.init 0 3 7 [] (by decide)).1⟩⟩

/-! ## C2 / C10: `Archetypes::get_id_or_insert` is append-only -/

theorem lookupAssoc_mem {m : List ((List Nat × List Nat) × Nat)}
    {k : List Nat × List Nat} {v : Nat} (h : lookupAssoc m k = some v) :
    (k, v) ∈ m := by
  induction m with
  | nil => simp [lookupAssoc] at h
  | cons kv rest ih =>
    rw [lookupAssoc] at h
    by_cases hk : kv.1 = k
    · rw [if_pos hk] at h
      have hv : kv.2 = v := Option.some.inj h
      have hkv : kv = (k, v) := by
        obtain ⟨ka, kb⟩ := kv
        simp only at hk hv
        rw [hk, hv]
      rw [← hkv]
      exact List.mem_cons_self _ _
    · rw [if_neg hk] at h
      exact List.mem_cons_of_mem _ (ih h)

theorem lookupAssoc_cons_self (m : List ((List Nat × List Nat) × Nat))
    (k : List Nat × List Nat) (v : Nat) :
    lookupAssoc ((k, v) :: m) k = some v := by
  simp [lookupAssoc]

theorem lookupAssoc_cons_ne (m : List ((List Nat × List Nat) × Nat))
    (k k2 : List Nat × List Nat) (v : Nat) (h : k ≠ k2) :
    lookupAssoc ((k, v) :: m) k2 = lookupAssoc m k2 := by
  simp [lookupAssoc, h]

/-- **C2**: a successful call to `get_id_or_insert` never removes or reorders
archetypes (the old archetype list is a prefix of the new one, so no issued
`ArchetypeId` is ever reused or invalidated): it either returns the
previously issued id for the identity with the state unchanged, or appends
exactly one archetype whose id is the previous archetype count, whose table
components receive the fresh consecutive `ArchetypeComponentId`s starting at
the previous `archetype_component_count` and whose sparse-set components
receive the ids directly after them.  `clear_entities` (the only operation
that touches existing archetypes) also changes no archetype's id. -/
theorem Archetypes.get_id_or_insert_append_only :
    ∀ (s : Archetypes) (tid : Nat) (tc sc : List Nat) (id : Nat) (s2 : Archetypes),
    s.get_id_or_insert tid tc sc = some (id, s2) →
    (∃ t, s2.archetypes = s.archetypes ++ t) ∧
    ((lookupAssoc s.archetype_ids (tc, sc) = some id ∧ s2 = s) ∨
     (lookupAssoc s.archetype_ids (tc, sc) = none ∧
      id = s.archetypes.length ∧
      s2.archetypes = s.archetypes ++
        [Archetype.new id tid
          (tc.zip (List.range' s.archetype_component_count tc.length))
          (sc.zip (List.range' (s.archetype_component_count + tc.length) sc.length))] ∧
      s2.archetype_component_count =
        s.archetype_component_count + tc.length + sc.length ∧
      s2.archetype_ids = ((tc, sc), id) :: s.archetype_ids)) ∧
    (s2.clear_entities).archetypes.map Archetype.id =
      s2.archetypes.map Archetype.id := by
  intro s tid tc sc id s2 h
  have hclear : ∀ (w : Archetypes),
      w.clear_entities.archetypes.map Archetype.id = w.archetypes.map Archetype.id := by
    intro w
    simp [Archetypes.clear_entities, Function.comp]
  rw [Archetypes.get_id_or_insert] at h
  cases hl : lookupAssoc s.archetype_ids (tc, sc) with
  | some v =>
    rw [hl] at h
    cases h
    exact ⟨⟨[], by simp⟩, Or.inl ⟨rfl, rfl⟩, hclear _⟩
  | none =>
    rw [hl] at h
    by_cases hcap : s.archetypes.length < u32Max
    · rw [if_pos hcap] at h
      cases h
      refine ⟨⟨_, rfl⟩, Or.inr ⟨rfl, rfl, rfl, rfl, rfl⟩, hclear _⟩
    · rw [if_neg hcap] at h
      cases h

/-- **C10**: `Archetypes::generation()` equals the number of archetypes, so a
`get_id_or_insert` call that hits an existing identity leaves the generation
unchanged, a call that creates a new archetype increases it by exactly one
(so it never decreases), and `clear_entities` — the only other mutation of
the archetype list — leaves it unchanged. -/
theorem Archetypes.generation_spec :
    ∀ (s : Archetypes) (tid : Nat) (tc sc : List Nat) (id : Nat) (s2 : Archetypes),
    s.get_id_or_insert tid tc sc = some (id, s2) →
    (s.generation ≤ s2.generation ∧
     (lookupAssoc s.archetype_ids (tc, sc) ≠ none → s2.generation = s.generation) ∧
     (lookupAssoc s.archetype_ids (tc, sc) = none →
        s2.generation = s.generation + 1) ∧
     s2.clear_entities.generation = s2.generation) := by
  intro s tid tc sc id s2 h
  obtain ⟨⟨t, ht⟩, hcase, -⟩ := Archetypes.get_id_or_insert_append_only s tid tc sc id s2 h
  have hclear : s2.clear_entities.generation = s2.generation := by
    simp [Archetypes.clear_entities, Archetypes.generation]
  rcases hcase with ⟨hl, rfl⟩ | ⟨hl, hid, harch, hcnt, hmap⟩
  · exact ⟨Nat.le_refl _, fun _ => rfl, fun hn => absurd hn (by simp [hl]), hclear⟩
  · refine ⟨?_, fun hs => absurd hl hs, fun _ => ?_, hclear⟩
    · simp [Archetypes.generation, ht]
    · simp [Archetypes.generation, harch]

/-- A successful `get_id_or_insert` preserves well-formedness. -/
theorem Archetypes.WF_preserved {s : Archetypes} {tid : Nat} {tc sc : List Nat}
    {id : Nat} {s2 : Archetypes} (hwf : s.WF)
    (h : s.get_id_or_insert tid tc sc = some (id, s2)) : s2.WF := by
  obtain ⟨⟨t, ht⟩, hcase, -⟩ := Archetypes.get_id_or_insert_append_only s tid tc sc id s2 h
  rcases hcase with ⟨hl, rfl⟩ | ⟨hl, hid, harch, hcnt, hmap⟩
  · exact hwf
  · obtain ⟨hr, hnd⟩ := hwf
    constructor
    · intro kv hkv
      rw [hmap] at hkv
      rcases List.mem_cons.mp hkv with hkv | hkv
      · subst hkv
        simp [harch, hid, List.length_append]
      · have := hr kv hkv
        simp [harch, List.length_append]
        omega
    · rw [hmap]
      simp only [List.map_cons]
      refine List.Nodup.cons ?_ hnd
      intro hmem
      obtain ⟨kv, hkv, hsnd⟩ := List.mem_map.mp hmem
      have := hr kv hkv
      omega

/-- A successful `get_id_or_insert` on a well-formed state returns an id
below the new archetype count. -/
theorem Archetypes.id_lt {s : Archetypes} {tid : Nat} {tc sc : List Nat}
    {id : Nat} {s2 : Archetypes} (hwf : s.WF)
    (h : s.get_id_or_insert tid tc sc = some (id, s2)) :
    id < s2.archetypes.length := by
  obtain ⟨⟨t, ht⟩, hcase, -⟩ := Archetypes.get_id_or_insert_append_only s tid tc sc id s2 h
  rcases hcase with ⟨hl, rfl⟩ | ⟨hl, hid, harch, hcnt, hmap⟩
  · exact hwf.1 _ (lookupAssoc_mem hl)
  · simp [harch, hid, List.length_append]

/-! ## C1: archetype identity deduplication -/

theorem sorted_eq_of_mem_iff {l1 l2 : List Nat}
    (h1 : List.Sorted (fun a b => a < b) l1)
    (h2 : List.Sorted (fun a b => a < b) l2)
    (hext : ∀ x, x ∈ l1 ↔ x ∈ l2) : l1 = l2 := by
  haveI : IsAntisymm Nat (fun a b => a < b) :=
    ⟨fun a b ha hb => absurd hb (Nat.lt_asymm ha)⟩
  refine List.eq_of_perm_of_sorted ?_ h1 h2
  have hn1 : l1.Nodup := h1.imp (fun hab => Nat.ne_of_lt hab)
  have hn2 : l2.Nodup := h2.imp (fun hab => Nat.ne_of_lt hab)
  exact (List.perm_ext_iff_of_nodup hn1 hn2).mpr hext

theorem snd_nodup_inj {m : List ((List Nat × List Nat) × Nat)}
    (h : (m.map Prod.snd).Nodup) {k1 k2 : List Nat × List Nat} {v : Nat}
    (h1 : (k1, v) ∈ m) (h2 : (k2, v) ∈ m) : k1 = k2 := by
  induction m with
  | nil => simp at h1
  | cons kv rest ih =>
    simp only [List.map_cons, List.nodup_cons] at h
    rcases List.mem_cons.mp h1 with e1 | e1 <;>
      rcases List.mem_cons.mp h2 with e2 | e2
    · rw [← e2] at e1
      exact congrArg Prod.fst e1
    · exfalso
      apply h.1
      have : v = kv.2 := (congrArg Prod.snd e1).symm ▸ rfl
      rw [← congrArg Prod.snd e1]
      exact List.mem_map.mpr ⟨(k2, v), e2, rfl⟩
    · exfalso
      apply h.1
      rw [← congrArg Prod.snd e2]
      exact List.mem_map.mpr ⟨(k1, v), e1, rfl⟩
    · exact ih h.2 e1 e2

/-- **C1**: for two consecutive calls to `get_id_or_insert` on a well-formed
world, with sorted component-id lists (sortedness is the function's
documented precondition, established by the caller's internal sorting), the
returned `ArchetypeId`s are equal exactly when the two table-component sets
and the two sparse-set-component sets coincide as sets — the sorted identity
deduplicates archetypes, so two entities with the same component set share
one archetype, independent of the (pre-sorting) input order. -/
theorem Archetypes.get_id_or_insert_identity
    (s : Archetypes) (tid1 tid2 : Nat) (tc1 sc1 tc2 sc2 : List Nat)
    (id1 id2 : Nat) (s1 s2 : Archetypes)
    (hwf : s.WF)
    (hs1 : List.Sorted (fun a b => a < b) tc1)
    (hs2 : List.Sorted (fun a b => a < b) sc1)
    (hs3 : List.Sorted (fun a b => a < b) tc2)
    (hs4 : List.Sorted (fun a b => a < b) sc2)
    (h1 : s.get_id_or_insert tid1 tc1 sc1 = some (id1, s1))
    (h2 : s1.get_id_or_insert tid2 tc2 sc2 = some (id2, s2)) :
    id1 = id2 ↔ ((∀ x, x ∈ tc1 ↔ x ∈ tc2) ∧ (∀ x, x ∈ sc1 ↔ x ∈ sc2)) := by
  obtain ⟨-, hcase1, -⟩ :=
    Archetypes.get_id_or_insert_append_only s tid1 tc1 sc1 id1 s1 h1
  constructor
  · intro hid
    by_contra hne
    have hkey : (tc1, sc1) ≠ (tc2, sc2) := by
      intro hk
      apply hne
      have e1 : tc1 = tc2 := congrArg Prod.fst hk
      have e2 : sc1 = sc2 := congrArg Prod.snd hk
      subst e1; subst e2
      exact ⟨fun x => Iff.rfl, fun x => Iff.rfl⟩
    -- the two keys differ, yet the ids agree: derive a contradiction
    rw [Archetypes.get_id_or_insert] at h2
    rcases hcase1 with ⟨hl1, rfl⟩ | ⟨hl1, hid1, harch1, hcnt1, hmap1⟩
    · -- first call hit an existing identity
      have hm1 : ((tc1, sc1), id1) ∈ s1.archetype_ids := lookupAssoc_mem hl1
      cases hl2 : lookupAssoc s1.archetype_ids (tc2, sc2) with
      | some v =>
        rw [hl2] at h2
        cases h2
        exact hkey (snd_nodup_inj hwf.2 hm1 (hid ▸ lookupAssoc_mem hl2))
      | none =>
        rw [hl2] at h2
        by_cases hcap : s1.archetypes.length < u32Max
        · rw [if_pos hcap] at h2
          cases h2
          have := hwf.1 _ hm1
          omega
        · rw [if_neg hcap] at h2
          cases h2
    · -- first call inserted a fresh archetype
      have hlook2 : lookupAssoc s1.archetype_ids (tc2, sc2) =
          lookupAssoc s.archetype_ids (tc2, sc2) := by
        rw [hmap1]
        exact lookupAssoc_cons_ne _ _ _ _ hkey
      cases hl2 : lookupAssoc s.archetype_ids (tc2, sc2) with
      | some v =>
        rw [hlook2, hl2] at h2
        cases h2
        have := hwf.1 _ (lookupAssoc_mem hl2)
        omega
      | none =>
        rw [hlook2, hl2] at h2
        by_cases hcap : s1.archetypes.length < u32Max
        · rw [if_pos hcap] at h2
          cases h2
          rw [hid1] at hid
          rw [hid] at hid1
          have : s1.archetypes.length = s.archetypes.length + 1 := by
            simp [harch1, List.length_append]
          omega
        · rw [if_neg hcap] at h2
          cases h2
  · rintro ⟨hext1, hext2⟩
    have e1 : tc1 = tc2 := sorted_eq_of_mem_iff hs1 hs3 hext1
    have e2 : sc1 = sc2 := sorted_eq_of_mem_iff hs2 hs4 hext2
    subst e1; subst e2
    rw [Archetypes.get_id_or_insert] at h2
    rcases hcase1 with ⟨hl1, rfl⟩ | ⟨hl1, hid1, harch1, hcnt1, hmap1⟩
    · rw [hl1] at h2
      cases h2
      rfl
    · rw [hmap1, lookupAssoc_cons_self] at h2
      cases h2
      rfl

/-- **C2 witness**: inserting `{1, 2}` (table) into the default world appends
one archetype. -/
theorem Archetypes.get_id_or_insert_append_only_witness :
    ∃ t, (⟨[Archetype.new 0 0 [] [], Archetype.new 1 5 [(1, 0), (2, 1)] []], 2,
        [(([1, 2], []), 1), (([], []), 0)]⟩ : Archetypes).archetypes =
      Archetypes.defaultState.archetypes ++ t :=
  (Archetypes.get_id_or_insert_append_only Archetypes.defaultState 5 [1, 2] [] 1
    ⟨[Archetype.new 0 0 [] [], Archetype.new 1 5 [(1, 0), (2, 1)] []], 2,
      [(([1, 2], []), 1), (([], []), 0)]⟩ (by decide)).1

/-- **C10 witness**: creating the `{1, 2}` archetype bumps the generation
from 1 to 2. -/
theorem Archetypes.generation_spec_witness :
    (⟨[Archetype.new 0 0 [] [], Archetype.new 1 5 [(1, 0), (2, 1)] []], 2,
        [(([1, 2], []), 1), (([], []), 0)]⟩ : Archetypes).generation =
      Archetypes.defaultState.generation + 1 :=
  (Archetypes.generation_spec Archetypes.defaultState 5 [1, 2] [] 1
    ⟨[Archetype.new 0 0 [] [], Archetype.new 1 5 [(1, 0), (2, 1)] []], 2,
      [(([1, 2], []), 1), (([], []), 0)]⟩ (by decide)).2.2.1 (by decide)

/-- **C1 witness**: inserting `{1, 2}` and then `{1, 3}` into the default
world: the ids `1` and `2` differ, exactly because the sets differ. -/
theorem Archetypes.get_id_or_insert_identity_witness :
    (1 : Nat) = 2 ↔
      ((∀ x, x ∈ [1, 2] ↔ x ∈ [1, 3]) ∧
       (∀ x, x ∈ ([] : List Nat) ↔ x ∈ ([] : List Nat))) :=
  Archetypes.get_id_or_insert_identity Archetypes.defaultState 5 5
    [1, 2] [] [1, 3] [] 1 2
    ⟨[Archetype.new 0 0 [] [], Archetype.new 1 5 [(1, 0), (2, 1)] []], 2,
      [(([1, 2], []), 1), (([], []), 0)]⟩
    ⟨[Archetype.new 0 0 [] [], Archetype.new 1 5 [(1, 0), (2, 1)] [],
        Archetype.new 2 5 [(1, 2), (3, 3)] []], 4,
      [(([1, 3], []), 2), (([1, 2], []), 1), (([], []), 0)]⟩
    (by decide) (by decide) (by decide) (by decide) (by decide)
    (by decide) (by decide)

/-! ## C7: `QueryCombinationIter::size_hint` -/

theorem chooseImpl_succ (n k : Nat) (hk : k < n) :
    chooseImpl n (k + 1) =
      (chooseImpl n k).bind fun acc =>
        (checked_mul acc (n - k)).map (fun m => m / (k + 1)) := by
  have hks : List.range' 1 (k + 1) = List.range' 1 k ++ [1 + k] :=
    List.range'_1_concat 1 k
  have hsub : n - (k + 1) + 1 = n - k := by omega
  have hns : (List.range' (n - (k + 1) + 1) (k + 1)).reverse =
      (List.range' (n - k + 1) k).reverse ++ [n - k] := by
    rw [hsub, List.range'_succ]
    simp
  have hlen : (List.range' 1 k).length = ((List.range' (n - k + 1) k).reverse).length := by
    simp
  rw [chooseImpl, hks, hns, List.zip_append hlen, List.foldlM_append]
  rw [chooseImpl]
  cases ((List.range' 1 k).zip ((List.range' (n - k + 1) k).reverse)).foldlM
      (fun acc kn => (checked_mul acc kn.2).map (fun m => m / kn.1)) 1 with
  | none => rfl
  | some acc =>
    simp [Nat.add_comm 1 k]

theorem chooseImpl_correct : ∀ (k n c : Nat), k ≤ n →
    chooseImpl n k = some c → c = Nat.choose n k := by
  intro k
  induction k with
  | zero =>
    intro n c _ h
    simp [chooseImpl] at h
    rw [Nat.choose_zero_right]
    omega
  | succ k ih =>
    intro n c hk h
    rw [chooseImpl_succ n k (by omega)] at h
    rcases Option.bind_eq_some.mp h with ⟨acc, hacc, hstep⟩
    rcases Option.map_eq_some'.mp hstep with ⟨m, hm, hc⟩
    have hmul : m = acc * (n - k) := by
      rw [checked_mul] at hm
      by_cases hle : acc * (n - k) ≤ usizeMax
      · rw [if_pos hle] at hm
        exact (Option.some.inj hm).symm
      · rw [if_neg hle] at hm
        cases hm
    have hacc2 : acc = Nat.choose n k := ih n acc (by omega) hacc
    subst hacc2
    subst hmul
    rw [← hc, ← Nat.choose_succ_right_eq,
      Nat.mul_div_cancel _ (Nat.succ_pos k)]

/-- **C7 counterexample**: with `K = 1`, one matched entity (`max_size = 1`)
and per-row filters present (`archetype_query = false`), the claim requires
the range `[0, C(1, 1)] = (0, some 1)`, but `size_hint` takes the
`max_size == K` early return and yields a lower bound of `1`. -/
theorem combinationSizeHint_counterexample :
    combinationSizeHint 1 1 false = (1, some 1) ∧
    combinationSizeHint 1 1 false ≠ (0, some (Nat.choose 1 1)) := by
  constructor
  · rfl
  · intro h
    have := congrArg Prod.fst h
    simp [combinationSizeHint] at this

/-- **C7 (amended)**: `size_hint` returns `(0, some 0)` when `K = 0` (even
though `C(N, 0) = 1`: the iterator yields no zero-sized combinations) and
when `N < K`; it returns `(1, some 1)` when `N = K ≥ 1` regardless of
per-row filtering; and for `N > K ≥ 1`, when the binomial computation does
not overflow, it returns exactly `(C(N, K), C(N, K))` for an
archetype-complete query and `(0, C(N, K))` otherwise. -/
theorem combinationSizeHint_spec :
    (∀ (N : Nat) (arch : Bool), combinationSizeHint 0 N arch = (0, some 0)) ∧
    (∀ (K N : Nat) (arch : Bool), N < K →
      combinationSizeHint K N arch = (0, some 0)) ∧
    (∀ (K : Nat) (arch : Bool), 1 ≤ K →
      combinationSizeHint K K arch = (1, some 1)) ∧
    (∀ (K N c : Nat) (arch : Bool), 1 ≤ K → K < N →
      chooseImpl N (min K (N - K)) = some c →
      (c = Nat.choose N K ∧
        combinationSizeHint K N arch = ((if arch then c else 0), some c))) := by
  refine ⟨?_, ?_, ?_, ?_⟩
  · intro N arch
    rfl
  · intro K N arch h
    rw [combinationSizeHint, if_neg (by omega), if_pos h]
  · intro K arch h
    rw [combinationSizeHint, if_neg (by omega), if_neg (by omega), if_pos rfl]
  · intro K N c arch hK hN hc
    have hcc : c = Nat.choose N K := by
      have hmin : min K (N - K) ≤ N := by omega
      have := chooseImpl_correct (min K (N - K)) N c hmin hc
      rcases Nat.le_total K (N - K) with hle | hle
      · rwa [Nat.min_eq_left hle] at this
      · rw [Nat.min_eq_right hle] at this
        rw [this, Nat.choose_symm (by omega)]
    refine ⟨hcc, ?_⟩
    rw [combinationSizeHint, if_neg (by omega), if_neg (by omega),
      if_neg (by omega)]
    simp only [hc]
    rfl

/-- **C7 witness**: `K = 2`, `N = 4`, archetype-complete: the hint is exactly
`(6, some 6) = (C(4, 2), C(4, 2))`. -/
theorem combinationSizeHint_spec_witness :
    (1 ≤ 2 ∧ 2 < 4 ∧ chooseImpl 4 (min 2 (4 - 2)) = some 6) ∧
    (6 = Nat.choose 4 2 ∧
      combinationSizeHint 2 4 true = ((if true then 6 else 0), some 6)) :=
  ⟨⟨by decide, by decide, by decide⟩,
   combinationSizeHint_spec.2.2.2 2 4 6 true (by decide) (by decide) (by decide)⟩

/-! ## Cursor lemmas (towards C3 and C5)

The single cursor is abstracted by the list of items it has yet to produce
(`futureOf`): each `next` call produces the head of that list and leaves the
tail. -/

section CursorLemmas

variable {E : Type} (tables : Nat → List E) (rowOf : E → Nat → Nat)
variable (f : E → Nat → Bool)

theorem streamOf_nil : streamOf tables rowOf f [] = [] := rfl

theorem streamOf_cons (id : Nat) (rest : List Nat) :
    streamOf tables rowOf f (id :: rest) =
      (withRows rowOf 0 (tables id)).filter (passItem f) ++
        streamOf tables rowOf f rest := by
  simp [streamOf, List.filter_append]

theorem withRows_drop_cons {ents : List E} {idx : Nat} {e : E}
    (h : ents[idx]? = some e) :
    withRows rowOf idx (ents.drop idx) =
      (e, rowOf e idx) :: withRows rowOf (idx + 1) (ents.drop (idx + 1)) := by
  have hlt : idx < ents.length := by
    by_contra hge
    rw [List.getElem?_eq_none (by omega)] at h
    cases h
  have hdrop : ents.drop idx = ents[idx] :: ents.drop (idx + 1) :=
    List.drop_eq_getElem_cons hlt
  have he : ents[idx] = e := by
    have := List.getElem?_eq_getElem hlt
    rw [this] at h
    exact Option.some.inj h
  rw [hdrop, he, withRows]

theorem inBatchScan_spec (ents : List E) : ∀ (fuel idx : Nat),
    idx + fuel = ents.length →
    (match inBatchScan rowOf f ents idx fuel with
     | some r =>
        ents[r.2.2 - 1]? = some r.1 ∧ r.2.1 = rowOf r.1 (r.2.2 - 1) ∧
        idx < r.2.2 ∧ r.2.2 ≤ ents.length ∧
        (withRows rowOf idx (ents.drop idx)).filter (passItem f) =
          (r.1, r.2.1) ::
            (withRows rowOf r.2.2 (ents.drop r.2.2)).filter (passItem f)
     | none =>
        (withRows rowOf idx (ents.drop idx)).filter (passItem f) = []) := by
  intro fuel
  induction fuel with
  | zero =>
    intro idx hlen
    rw [inBatchScan]
    have : ents.drop idx = [] := List.drop_eq_nil_of_le (by omega)
    rw [this, withRows, List.filter_nil]
  | succ fuel ih =>
    intro idx hlen
    have hlt : idx < ents.length := by omega
    obtain ⟨e, he⟩ : ∃ e, ents[idx]? = some e := by
      rw [List.getElem?_eq_getElem hlt]; exact ⟨_, rfl⟩
    have hget : ents.get? idx = some e := by
      rw [List.get?_eq_getElem?]; exact he
    by_cases hf : f e (rowOf e idx)
    · have heq : inBatchScan rowOf f ents idx (fuel + 1) =
          some (e, rowOf e idx, idx + 1) := by
        simp [inBatchScan, List.get?_eq_getElem?, he, hf]
      rw [heq]
      refine ⟨show ents[idx + 1 - 1]? = some e by simpa using he,
        show rowOf e idx = rowOf e (idx + 1 - 1) by simp,
        show idx < idx + 1 by omega,
        show idx + 1 ≤ ents.length by omega, ?_⟩
      show (withRows rowOf idx (ents.drop idx)).filter (passItem f) =
        (e, rowOf e idx) ::
          (withRows rowOf (idx + 1) (ents.drop (idx + 1))).filter (passItem f)
      rw [withRows_drop_cons rowOf he]
      simp [List.filter_cons, passItem, hf]
    · have heq : inBatchScan rowOf f ents idx (fuel + 1) =
          inBatchScan rowOf f ents (idx + 1) fuel := by
        simp [inBatchScan, List.get?_eq_getElem?, he, hf]
      rw [heq]
      have hrec := ih (idx + 1) (by omega)
      have hfilter : (withRows rowOf idx (ents.drop idx)).filter (passItem f) =
          (withRows rowOf (idx + 1) (ents.drop (idx + 1))).filter (passItem f) := by
        rw [withRows_drop_cons rowOf he]
        simp [List.filter_cons, passItem, hf]
      cases hscan : inBatchScan rowOf f ents (idx + 1) fuel with
      | none =>
        rw [hscan] at hrec
        rw [hfilter]
        exact hrec
      | some r =>
        rw [hscan] at hrec
        obtain ⟨h1, h2, h3, h4, h5⟩ := hrec
        exact ⟨h1, h2, by omega, h4, by rw [hfilter]; exact h5⟩

theorem cursorNextGo_spec : ∀ (ids : List Nat) (ents : List E) (idx : Nat),
    idx ≤ ents.length →
    (cursorNextGo tables rowOf f ids ents ents.length idx).1 =
      ((withRows rowOf idx (ents.drop idx)).filter (passItem f) ++
        streamOf tables rowOf f ids).head? ∧
    futureOf tables rowOf f (cursorNextGo tables rowOf f ids ents ents.length idx).2 =
      ((withRows rowOf idx (ents.drop idx)).filter (passItem f) ++
        streamOf tables rowOf f ids).tail ∧
    WFc (cursorNextGo tables rowOf f ids ents ents.length idx).2 ∧
    (∀ it, (cursorNextGo tables rowOf f ids ents ents.length idx).1 = some it →
      peek_last rowOf (cursorNextGo tables rowOf f ids ents ents.length idx).2 = some it ∧
      0 < (cursorNextGo tables rowOf f ids ents ents.length idx).2.current_index) := by
  intro ids
  induction ids with
  | nil =>
    intro ents idx hidx
    have hspec := inBatchScan_spec rowOf f ents (ents.length - idx) idx (by omega)
    cases hscan : inBatchScan rowOf f ents idx (ents.length - idx) with
    | some r =>
      rw [hscan] at hspec
      obtain ⟨h1, h2, h3, h4, h5⟩ := hspec
      have heq : cursorNextGo tables rowOf f [] ents ents.length idx =
          (some (r.1, r.2.1), ⟨[], ents, ents.length, r.2.2⟩) := by
        rw [cursorNextGo, hscan]
      rw [heq]
      refine ⟨by rw [h5]; rfl, ?_, ⟨rfl, h4⟩, ?_⟩
      · simp only [futureOf, h5, streamOf_nil, List.append_nil, List.tail_cons]
      · intro it hit
        cases hit
        refine ⟨?_, show 0 < r.2.2 by omega⟩
        simp only [peek_last, List.get?_eq_getElem?]
        rw [if_pos (show 0 < r.2.2 by omega)]
        rw [h1]
        simp [h2]
    | none =>
      rw [hscan] at hspec
      have heq : cursorNextGo tables rowOf f [] ents ents.length idx =
          (none, ⟨[], ents, ents.length, ents.length⟩) := by
        rw [cursorNextGo, hscan]
      rw [heq, hspec, streamOf_nil]
      refine ⟨rfl, ?_, ⟨rfl, Nat.le_refl _⟩, fun it hit => by cases hit⟩
      simp only [futureOf, streamOf_nil, List.append_nil]
      rw [List.drop_eq_nil_of_le (Nat.le_refl _)]
      rfl
  | cons id rest ih =>
    intro ents idx hidx
    have hspec := inBatchScan_spec rowOf f ents (ents.length - idx) idx (by omega)
    cases hscan : inBatchScan rowOf f ents idx (ents.length - idx) with
    | some r =>
      rw [hscan] at hspec
      obtain ⟨h1, h2, h3, h4, h5⟩ := hspec
      have heq : cursorNextGo tables rowOf f (id :: rest) ents ents.length idx =
          (some (r.1, r.2.1), ⟨id :: rest, ents, ents.length, r.2.2⟩) := by
        rw [cursorNextGo, hscan]
      rw [heq]
      refine ⟨by rw [h5]; rfl, ?_, ⟨rfl, h4⟩, ?_⟩
      · simp only [futureOf, h5]
        rfl
      · intro it hit
        cases hit
        refine ⟨?_, show 0 < r.2.2 by omega⟩
        simp only [peek_last, List.get?_eq_getElem?]
        rw [if_pos (show 0 < r.2.2 by omega)]
        rw [h1]
        simp [h2]
    | none =>
      rw [hscan] at hspec
      have heq : cursorNextGo tables rowOf f (id :: rest) ents ents.length idx =
          cursorNextGo tables rowOf f rest (tables id) (tables id).length 0 := by
        rw [cursorNextGo, hscan]
      rw [heq, hspec, streamOf_cons, List.nil_append]
      have hrec := ih (tables id) 0 (Nat.zero_le _)
      simpa using hrec

theorem cursorNext_spec (c : Cursor E) (hwf : WFc c) :
    (cursorNext tables rowOf f c).1 = (futureOf tables rowOf f c).head? ∧
    futureOf tables rowOf f (cursorNext tables rowOf f c).2 =
      (futureOf tables rowOf f c).tail ∧
    WFc (cursorNext tables rowOf f c).2 ∧
    (∀ it, (cursorNext tables rowOf f c).1 = some it →
      peek_last rowOf (cursorNext tables rowOf f c).2 = some it ∧
      0 < (cursorNext tables rowOf f c).2.current_index) := by
  obtain ⟨hlen, hidx⟩ := hwf
  have := cursorNextGo_spec tables rowOf f c.ids c.entities c.current_index
    (by omega)
  rw [cursorNext, hlen]
  exact this

theorem getD_set_self {α : Type} (l : List α) (j : Nat) (v d : α)
    (hj : j < l.length) : (l.set j v).getD j d = v := by
  rw [List.getD_eq_getElem?_getD, List.getElem?_set_self',
    List.getElem?_eq_getElem hj]
  rfl

theorem getD_set_ne {α : Type} (l : List α) (j m : Nat) (v d : α)
    (h : j ≠ m) : (l.set j v).getD m d = l.getD m d := by
  rw [List.getD_eq_getElem?_getD, List.getElem?_set_ne h,
    ← List.getD_eq_getElem?_getD]

theorem cursorNext_sfx_lt {S : List (E × Nat)} {c : Cursor E} {k : Nat}
    (h : Sfx tables rowOf f S c k) (hk : k < S.length) :
    (cursorNext tables rowOf f c).1 = S[k]? ∧
    Sfx tables rowOf f S (cursorNext tables rowOf f c).2 (k + 1) ∧
    peek_last rowOf (cursorNext tables rowOf f c).2 = S[k]? ∧
    0 < (cursorNext tables rowOf f c).2.current_index := by
  obtain ⟨hwf, hkle, hfut⟩ := h
  obtain ⟨h1, h2, h3, h4⟩ := cursorNext_spec tables rowOf f c hwf
  rw [hfut, List.head?_drop] at h1
  rw [hfut, List.tail_drop] at h2
  obtain ⟨x, hx⟩ : ∃ x, S[k]? = some x := by
    rw [List.getElem?_eq_getElem hk]; exact ⟨_, rfl⟩
  obtain ⟨hp, hi⟩ := h4 x (by rw [h1, hx])
  exact ⟨h1, ⟨h3, by omega, h2⟩, by rw [hp, hx], hi⟩

theorem cursorNext_sfx_ge {S : List (E × Nat)} {c : Cursor E} {k : Nat}
    (h : Sfx tables rowOf f S c k) (hk : S.length ≤ k) :
    (cursorNext tables rowOf f c).1 = none ∧
    Sfx tables rowOf f S (cursorNext tables rowOf f c).2 k := by
  obtain ⟨hwf, hkle, hfut⟩ := h
  obtain ⟨h1, h2, h3, -⟩ := cursorNext_spec tables rowOf f c hwf
  have hdrop : S.drop k = [] := List.drop_eq_nil_of_le hk
  rw [hfut, hdrop] at h1 h2
  exact ⟨h1, h3, hkle, by rw [h2, hdrop]; rfl⟩

/-- Once a `next` call on a well-formed cursor has returned no item (its
matched-id list is consumed), every subsequent `next` call — `QueryIter::next`
delegates directly to the cursor — also returns no item: the exhausted state
is terminal.  (Combined with the combination-iterator part in
`query_exhausted_terminal` below.) -/
theorem cursor_exhausted_terminal {E : Type} (tables : Nat → List E)
    (rowOf : E → Nat → Nat) (f : E → Nat → Bool) (c : Cursor E)
    (hwf : WFc c) (hnone : (cursorNext tables rowOf f c).1 = none) :
    ∀ n, (cursorIterate tables rowOf f n c).1 = none := by
  have hterm : ∀ (n : Nat) (c2 : Cursor E), WFc c2 →
      futureOf tables rowOf f c2 = [] →
      (cursorIterate tables rowOf f n c2).1 = none := by
    intro n
    induction n with
    | zero =>
      intro c2 hwf2 hf2
      obtain ⟨h1, -, -, -⟩ := cursorNext_spec tables rowOf f c2 hwf2
      show (cursorNext tables rowOf f c2).1 = none
      rw [h1, hf2]
      rfl
    | succ n ih =>
      intro c2 hwf2 hf2
      obtain ⟨-, h2, h3, -⟩ := cursorNext_spec tables rowOf f c2 hwf2
      rw [hf2] at h2
      show (cursorIterate tables rowOf f n (cursorNext tables rowOf f c2).2).1 = none
      exact ih _ h3 h2
  obtain ⟨h1, h2, h3, -⟩ := cursorNext_spec tables rowOf f c hwf
  have hemp : futureOf tables rowOf f c = [] := by
    rw [h1] at hnone
    exact List.head?_eq_none_iff.mp hnone
  intro n
  cases n with
  | zero =>
    exact hnone
  | succ n =>
    show (cursorIterate tables rowOf f n (cursorNext tables rowOf f c).2).1 = none
    exact hterm n _ h3 (by rw [h2, hemp]; rfl)

theorem AbsState.update {S : List (E × Nat)} {cs : List (Cursor E)}
    {ks : List Nat} (h : AbsState tables rowOf f S cs ks) (j : Nat)
    (c : Cursor E) (k : Nat) (hc : Sfx tables rowOf f S c k) :
    AbsState tables rowOf f S (cs.set j c) (ks.set j k) := by
  obtain ⟨hlen, hall⟩ := h
  refine ⟨by simp [List.length_set, hlen], ?_⟩
  intro m hm
  rw [List.length_set] at hm
  by_cases hjm : j = m
  · subst hjm
    rw [getD_set_self _ _ _ _ hm, getD_set_self _ _ _ _ (by omega)]
    exact hc
  · rw [getD_set_ne _ _ _ _ _ hjm, getD_set_ne _ _ _ _ _ hjm]
    exact hall m hm

theorem innerFor_spec {S : List (E × Nat)} : ∀ (cnt j : Nat)
    (cs : List (Cursor E)) (ks : List Nat),
    AbsState tables rowOf f S cs ks → j + cnt = cs.length → 1 ≤ j →
    (if ks.getD (j - 1) 0 + cnt ≤ S.length then
      ∃ cs2 ks2, innerFor tables rowOf f cs (List.range' j cnt) = .ok cs2 ∧
        AbsState tables rowOf f S cs2 ks2 ∧ cs2.length = cs.length ∧
        (∀ m, m < j → cs2.getD m default = cs.getD m default ∧
          ks2.getD m 0 = ks.getD m 0) ∧
        (∀ m, j ≤ m → m < cs.length →
          ks2.getD m 0 = ks.getD (j - 1) 0 + (m - j) + 1 ∧
          peek_last rowOf (cs2.getD m default) = S[ks.getD (j - 1) 0 + (m - j)]?)
    else
      ∃ cs2 ks2, innerFor tables rowOf f cs (List.range' j cnt) = .fail cs2 ∧
        AbsState tables rowOf f S cs2 ks2 ∧ cs2.length = cs.length ∧
        (∀ m, m < j → cs2.getD m default = cs.getD m default ∧
          ks2.getD m 0 = ks.getD m 0) ∧
        (∀ m, j ≤ m → m < cs.length →
          S.length ≤ ks2.getD m 0 + (cs.length - 1 - m) ∨
          ks2.getD m 0 = ks.getD m 0)) := by
  intro cnt
  induction cnt with
  | zero =>
    intro j cs ks habs hcnt hj
    have hjlt : j - 1 < cs.length := by omega
    have ha := (habs.2 (j - 1) hjlt).2.1
    rw [if_pos (by omega)]
    refine ⟨cs, ks, rfl, habs, rfl, fun m hm => ⟨rfl, rfl⟩, fun m hm hm2 => ?_⟩
    omega
  | succ cnt ih =>
    intro j cs ks habs hcnt hj
    have hjlt : j - 1 < cs.length := by omega
    have hjlt2 : j < cs.length := by omega
    set a := ks.getD (j - 1) 0 with ha
    have hsfx : Sfx tables rowOf f S (cs.getD (j - 1) default) a :=
      habs.2 (j - 1) hjlt
    have hrange : List.range' j (cnt + 1) = j :: List.range' (j + 1) cnt :=
      List.range'_succ j cnt 1
    have hklen : ks.length = cs.length := habs.1.symm
    rcases Nat.lt_or_ge a S.length with haN | haN
    · -- the clone advances successfully
      obtain ⟨hemit, hsfx2, hpeek2, hidx2⟩ := cursorNext_sfx_lt tables rowOf f hsfx haN
      obtain ⟨x, hx⟩ : ∃ x, S[a]? = some x := by
        rw [List.getElem?_eq_getElem haN]; exact ⟨_, rfl⟩
      have hstep : innerFor tables rowOf f cs (List.range' j (cnt + 1)) =
          innerFor tables rowOf f
            (cs.set j (cursorNext tables rowOf f (cs.getD (j - 1) default)).2)
            (List.range' (j + 1) cnt) := by
        rw [hrange, innerFor]
        rw [show (cursorNext tables rowOf f (cs.getD (j - 1) default)) =
          (some x, (cursorNext tables rowOf f (cs.getD (j - 1) default)).2) from
          Prod.ext (by rw [hemit, hx]) rfl]
      have habs2 : AbsState tables rowOf f S
          (cs.set j (cursorNext tables rowOf f (cs.getD (j - 1) default)).2)
          (ks.set j (a + 1)) :=
        AbsState.update tables rowOf f habs j _ _ hsfx2
      have hrec := ih (j + 1)
        (cs.set j (cursorNext tables rowOf f (cs.getD (j - 1) default)).2)
        (ks.set j (a + 1)) habs2 (by simp [List.length_set]; omega) (by omega)
      have hgetj : (ks.set j (a + 1)).getD (j + 1 - 1) 0 = a + 1 := by
        rw [show j + 1 - 1 = j from rfl, getD_set_self _ _ _ _ (by omega)]
      rcases Nat.lt_or_ge (a + cnt) S.length with hcond | hcond
      · rw [if_pos (show a + (cnt + 1) ≤ S.length by omega)]
        rw [if_pos (by rw [hgetj]; omega)] at hrec
        obtain ⟨cs2, ks2, hok, habs3, hlen3, hlow, hhigh⟩ := hrec
        refine ⟨cs2, ks2, by rw [hstep]; exact hok, habs3,
          by rw [hlen3, List.length_set], ?_, ?_⟩
        · intro m hm
          obtain ⟨e1, e2⟩ := hlow m (by omega)
          rw [e1, e2, getD_set_ne _ _ _ _ _ (by omega),
            getD_set_ne _ _ _ _ _ (by omega)]
          exact ⟨rfl, rfl⟩
        · intro m hmj hmlen
          rcases Nat.eq_or_lt_of_le hmj with hmj2 | hmj2
          · subst hmj2
            obtain ⟨e1, e2⟩ := hlow j (by omega)
            rw [e1, e2, getD_set_self _ _ _ _ (by omega),
              getD_set_self _ _ _ _ (by omega)]
            refine ⟨by omega, ?_⟩
            rw [hpeek2]
            congr 1
            omega
          · obtain ⟨e1, e2⟩ := hhigh m (by omega) (by rwa [List.length_set])
            rw [hgetj] at e1 e2
            refine ⟨by rw [e1]; omega, ?_⟩
            rw [e2]
            congr 1
            omega
      · rw [if_neg (by omega)]
        rw [if_neg (by rw [hgetj]; omega)] at hrec
        obtain ⟨cs2, ks2, hfail, habs3, hlen3, hlow, hhigh⟩ := hrec
        refine ⟨cs2, ks2, by rw [hstep]; exact hfail, habs3,
          by rw [hlen3, List.length_set], ?_, ?_⟩
        · intro m hm
          obtain ⟨e1, e2⟩ := hlow m (by omega)
          rw [e1, e2, getD_set_ne _ _ _ _ _ (by omega),
            getD_set_ne _ _ _ _ _ (by omega)]
          exact ⟨rfl, rfl⟩
        · intro m hmj hmlen
          rcases Nat.eq_or_lt_of_le hmj with hmj2 | hmj2
          · subst hmj2
            obtain ⟨e1, e2⟩ := hlow j (by omega)
            left
            rw [e2, getD_set_self _ _ _ _ (by omega)]
            omega
          · rcases hhigh m (by omega) (by rwa [List.length_set]) with hc | hc
            · left
              rw [List.length_set] at hc
              omega
            · rw [getD_set_ne _ _ _ _ _ (by omega)] at hc
              right
              exact hc
    · -- the clone is already exhausted: propagation fails here
      obtain ⟨hemit, hsfx2⟩ := cursorNext_sfx_ge tables rowOf f hsfx haN
      have hstep : innerFor tables rowOf f cs (List.range' j (cnt + 1)) =
          .fail (cs.set j (cursorNext tables rowOf f (cs.getD (j - 1) default)).2) := by
        rw [hrange, innerFor]
        rw [show (cursorNext tables rowOf f (cs.getD (j - 1) default)) =
          (none, (cursorNext tables rowOf f (cs.getD (j - 1) default)).2) from
          Prod.ext hemit rfl]
      have habs2 : AbsState tables rowOf f S
          (cs.set j (cursorNext tables rowOf f (cs.getD (j - 1) default)).2)
          (ks.set j a) :=
        AbsState.update tables rowOf f habs j _ _ hsfx2
      rw [if_neg (by omega)]
      refine ⟨_, _, hstep, habs2, by rw [List.length_set], ?_, ?_⟩
      · intro m hm
        rw [getD_set_ne _ _ _ _ _ (by omega), getD_set_ne _ _ _ _ _ (by omega)]
        exact ⟨rfl, rfl⟩
      · intro m hmj hmlen
        by_cases hjm : j = m
        · subst hjm
          left
          rw [getD_set_self _ _ _ _ (by omega)]
          omega
        · right
          rw [getD_set_ne _ _ _ _ _ hjm]

theorem range_reverse_succ (i : Nat) :
    (List.range (i + 1)).reverse = i :: (List.range i).reverse := by
  rw [List.range_succ, List.reverse_append]
  rfl

theorem outerFor_cons (K i : Nat) (is : List Nat) (cs : List (Cursor E)) :
    outerFor tables rowOf f K cs (i :: is) =
      match (cursorNext tables rowOf f (cs.getD i default)).1 with
      | some _ =>
        (match innerFor tables rowOf f
            (cs.set i (cursorNext tables rowOf f (cs.getD i default)).2)
            (List.range' (i + 1) (K - (i + 1))) with
         | .ok cs2 => (some cs2, cs2)
         | .fail cs2 =>
           match i with
           | 0 => (none, cs2)
           | _ + 1 => outerFor tables rowOf f K cs2 is)
      | none =>
        match i with
        | 0 => (none, cs.set i (cursorNext tables rowOf f (cs.getD i default)).2)
        | _ + 1 => outerFor tables rowOf f K
            (cs.set i (cursorNext tables rowOf f (cs.getD i default)).2) is := by
  rw [outerFor]
  cases hr : cursorNext tables rowOf f (cs.getD i default) with
  | mk o c2 => cases o <;> rfl

/-- Descending through the outer loop when no cursor has room for a full
combination: the call yields no combination and leaves every position
room-less. -/
theorem outerFor_none {S : List (E × Nat)} : ∀ (i : Nat)
    (cs : List (Cursor E)) (ks : List Nat),
    AbsState tables rowOf f S cs ks → i < cs.length →
    (∀ j, j < cs.length → S.length ≤ ks.getD j 0 + (cs.length - 1 - j)) →
    ∃ cs2 ks2,
      outerFor tables rowOf f cs.length cs ((List.range (i + 1)).reverse) =
        (none, cs2) ∧
      AbsState tables rowOf f S cs2 ks2 ∧ cs2.length = cs.length ∧
      (∀ j, j < cs.length → S.length ≤ ks2.getD j 0 + (cs.length - 1 - j)) := by
  intro i
  induction i with
  | zero =>
    intro cs ks habs hi hnoroom
    have hsfx : Sfx tables rowOf f S (cs.getD 0 default) (ks.getD 0 0) :=
      habs.2 0 hi
    rcases Nat.lt_or_ge (ks.getD 0 0) S.length with haN | haN
    · -- cursor 0 advances but propagation must fail
      obtain ⟨hemit, hsfx2, -, -⟩ := cursorNext_sfx_lt tables rowOf f hsfx haN
      obtain ⟨x, hx⟩ : ∃ x, S[ks.getD 0 0]? = some x := by
        rw [List.getElem?_eq_getElem haN]; exact ⟨_, rfl⟩
      have habs1 : AbsState tables rowOf f S
          (cs.set 0 (cursorNext tables rowOf f (cs.getD 0 default)).2)
          (ks.set 0 (ks.getD 0 0 + 1)) :=
        AbsState.update tables rowOf f habs 0 _ _ hsfx2
      have hinner := innerFor_spec tables rowOf f (cs.length - 1) 1 _ _ habs1
        (by simp [List.length_set]; omega) (Nat.le_refl 1)
      have hget0 : (ks.set 0 (ks.getD 0 0 + 1)).getD 0 0 = ks.getD 0 0 + 1 :=
        getD_set_self _ _ _ _ (by have hh := habs.1; omega)
      rw [if_neg (by rw [hget0]; have := hnoroom 0 hi; omega)] at hinner
      obtain ⟨cs2, ks2, hfail, habs2, hlen2, hlow, hhigh⟩ := hinner
      have hstep : outerFor tables rowOf f cs.length cs
          ((List.range 1).reverse) = (none, cs2) := by
        show outerFor tables rowOf f cs.length cs [0] = (none, cs2)
        rw [outerFor_cons tables rowOf f cs.length 0 [] cs,
          show (cursorNext tables rowOf f (cs.getD 0 default)).1 = some x from
            by rw [hemit, hx]]
        simp only [Nat.zero_add]
        rw [hfail]
      refine ⟨cs2, ks2, hstep, habs2,
        by rw [hlen2, List.length_set], ?_⟩
      intro j hj
      rcases Nat.eq_or_lt_of_le (Nat.zero_le j) with hj0 | hj0
      · obtain ⟨-, e2⟩ := hlow 0 (by omega)
        rw [← hj0, e2, hget0]
        have := hnoroom 0 hi
        omega
      · rcases hhigh j (by omega) (by rwa [List.length_set]) with hc | hc
        · rw [List.length_set] at hc
          omega
        · rw [hc, getD_set_ne _ _ _ _ _ (by omega)]
          exact hnoroom j hj
    · -- cursor 0 is exhausted
      obtain ⟨hemit, hsfx2⟩ := cursorNext_sfx_ge tables rowOf f hsfx haN
      have habs1 : AbsState tables rowOf f S
          (cs.set 0 (cursorNext tables rowOf f (cs.getD 0 default)).2)
          (ks.set 0 (ks.getD 0 0)) :=
        AbsState.update tables rowOf f habs 0 _ _ hsfx2
      have hstep : outerFor tables rowOf f cs.length cs
          ((List.range 1).reverse) =
          (none, cs.set 0 (cursorNext tables rowOf f (cs.getD 0 default)).2) := by
        show outerFor tables rowOf f cs.length cs [0] = _
        rw [outerFor_cons tables rowOf f cs.length 0 [] cs, hemit]
      refine ⟨_, _, hstep, habs1, by rw [List.length_set], ?_⟩
      intro j hj
      by_cases hj0 : (0 : Nat) = j
      · rw [← hj0, getD_set_self _ _ _ _ (by have hh := habs.1; omega)]
        exact hnoroom 0 hi
      · rw [getD_set_ne _ _ _ _ _ hj0]
        exact hnoroom j hj
  | succ i ih =>
    intro cs ks habs hi hnoroom
    have hsfx : Sfx tables rowOf f S (cs.getD (i + 1) default) (ks.getD (i + 1) 0) :=
      habs.2 (i + 1) hi
    have hilen : i + 1 < ks.length := by have hh := habs.1; omega
    rcases Nat.lt_or_ge (ks.getD (i + 1) 0) S.length with haN | haN
    · -- cursor i+1 advances but propagation must fail; continue at i
      obtain ⟨hemit, hsfx2, -, -⟩ := cursorNext_sfx_lt tables rowOf f hsfx haN
      obtain ⟨x, hx⟩ : ∃ x, S[ks.getD (i + 1) 0]? = some x := by
        rw [List.getElem?_eq_getElem haN]; exact ⟨_, rfl⟩
      have habs1 : AbsState tables rowOf f S
          (cs.set (i + 1) (cursorNext tables rowOf f (cs.getD (i + 1) default)).2)
          (ks.set (i + 1) (ks.getD (i + 1) 0 + 1)) :=
        AbsState.update tables rowOf f habs (i + 1) _ _ hsfx2
      have hinner := innerFor_spec tables rowOf f (cs.length - (i + 2)) (i + 2) _ _
        habs1 (by simp [List.length_set]; omega) (by omega)
      have hget1 : (ks.set (i + 1) (ks.getD (i + 1) 0 + 1)).getD (i + 1) 0 =
          ks.getD (i + 1) 0 + 1 := getD_set_self _ _ _ _ hilen
      rw [if_neg (by
        rw [show i + 2 - 1 = i + 1 from rfl, hget1]
        have := hnoroom (i + 1) hi
        omega)] at hinner
      obtain ⟨cs2, ks2, hfail, habs2, hlen2, hlow, hhigh⟩ := hinner
      have hnoroom2 : ∀ j, j < cs2.length →
          S.length ≤ ks2.getD j 0 + (cs2.length - 1 - j) := by
        intro j hj
        rw [hlen2, List.length_set] at hj ⊢
        rcases Nat.lt_or_ge j (i + 2) with hji | hji
        · obtain ⟨-, e2⟩ := hlow j hji
          by_cases hje : i + 1 = j
          · rw [e2, ← hje, hget1]
            have := hnoroom (i + 1) hi
            omega
          · rw [e2, getD_set_ne _ _ _ _ _ hje]
            exact hnoroom j hj
        · rcases hhigh j hji (by rwa [List.length_set]) with hc | hc
          · rw [List.length_set] at hc
            omega
          · rw [hc, getD_set_ne _ _ _ _ _ (by omega)]
            exact hnoroom j hj
      have hrec := ih cs2 ks2 habs2
        (by rw [hlen2, List.length_set]; omega) hnoroom2
      obtain ⟨cs3, ks3, hout, habs3, hlen3, hnoroom3⟩ := hrec
      have hstep : outerFor tables rowOf f cs.length cs
          ((List.range (i + 2)).reverse) = (none, cs3) := by
        rw [range_reverse_succ,
          outerFor_cons tables rowOf f cs.length (i + 1) ((List.range (i + 1)).reverse) cs,
          show (cursorNext tables rowOf f (cs.getD (i + 1) default)).1 = some x from
            by rw [hemit, hx]]
        rw [show i + 1 + 1 = i + 2 from rfl, hfail]
        rw [show cs.length = cs2.length from by rw [hlen2, List.length_set]]
        exact hout
      refine ⟨cs3, ks3, hstep, habs3,
        by rw [hlen3, hlen2, List.length_set], ?_⟩
      intro j hj
      rw [show cs.length = cs2.length from by rw [hlen2, List.length_set]] at hj ⊢
      exact hnoroom3 j hj
    · -- cursor i+1 is exhausted; continue at i
      obtain ⟨hemit, hsfx2⟩ := cursorNext_sfx_ge tables rowOf f hsfx haN
      have habs1 : AbsState tables rowOf f S
          (cs.set (i + 1) (cursorNext tables rowOf f (cs.getD (i + 1) default)).2)
          (ks.set (i + 1) (ks.getD (i + 1) 0)) :=
        AbsState.update tables rowOf f habs (i + 1) _ _ hsfx2
      have hnoroom2 : ∀ j,
          j < (cs.set (i + 1) (cursorNext tables rowOf f (cs.getD (i + 1) default)).2).length →
          S.length ≤ (ks.set (i + 1) (ks.getD (i + 1) 0)).getD j 0 +
            ((cs.set (i + 1) (cursorNext tables rowOf f (cs.getD (i + 1) default)).2).length - 1 - j) := by
        intro j hj
        rw [List.length_set] at hj ⊢
        by_cases hje : i + 1 = j
        · rw [← hje, getD_set_self _ _ _ _ hilen]
          exact hnoroom (i + 1) hi
        · rw [getD_set_ne _ _ _ _ _ hje]
          exact hnoroom j hj
      have hrec := ih _ _ habs1 (by rw [List.length_set]; omega) hnoroom2
      obtain ⟨cs3, ks3, hout, habs3, hlen3, hnoroom3⟩ := hrec
      have hstep : outerFor tables rowOf f cs.length cs
          ((List.range (i + 2)).reverse) = (none, cs3) := by
        rw [range_reverse_succ,
          outerFor_cons tables rowOf f cs.length (i + 1) ((List.range (i + 1)).reverse) cs,
          hemit]
        rw [show cs.length =
          (cs.set (i + 1) (cursorNext tables rowOf f (cs.getD (i + 1) default)).2).length
          from by rw [List.length_set]]
        exact hout
      refine ⟨cs3, ks3, hstep, habs3, by rw [hlen3, List.length_set], ?_⟩
      intro j hj
      rw [show cs.length =
        (cs.set (i + 1) (cursorNext tables rowOf f (cs.getD (i + 1) default)).2).length
        from by rw [List.length_set]] at hj ⊢
      exact hnoroom3 j hj

/-- Descending through the outer loop when some cursor still has room: the
call succeeds at the highest such index `istar` (failed attempts above it
are overwritten by the propagation), emits the items at positions
`ks istar, ks istar + 1, ...`, and leaves the cursors below `istar`
untouched. -/
theorem outerFor_succ {S : List (E × Nat)} : ∀ (i : Nat)
    (cs : List (Cursor E)) (ks : List Nat) (istar : Nat),
    AbsState tables rowOf f S cs ks → i < cs.length → istar ≤ i →
    ks.getD istar 0 + (cs.length - 1 - istar) < S.length →
    (∀ j, istar < j → j < cs.length →
      S.length ≤ ks.getD j 0 + (cs.length - 1 - j)) →
    ∃ cs2 ks2,
      outerFor tables rowOf f cs.length cs ((List.range (i + 1)).reverse) =
        (some cs2, cs2) ∧
      AbsState tables rowOf f S cs2 ks2 ∧ cs2.length = cs.length ∧
      (∀ m, m < istar → cs2.getD m default = cs.getD m default ∧
        ks2.getD m 0 = ks.getD m 0) ∧
      (∀ m, istar ≤ m → m < cs.length →
        ks2.getD m 0 = ks.getD istar 0 + (m - istar) + 1 ∧
        peek_last rowOf (cs2.getD m default) = S[ks.getD istar 0 + (m - istar)]?) := by
  have hdirect : ∀ (i : Nat) (cs : List (Cursor E)) (ks : List Nat),
      AbsState tables rowOf f S cs ks → i < cs.length →
      ks.getD i 0 + (cs.length - 1 - i) < S.length →
      ∃ cs2 ks2,
        outerFor tables rowOf f cs.length cs ((List.range (i + 1)).reverse) =
          (some cs2, cs2) ∧
        AbsState tables rowOf f S cs2 ks2 ∧ cs2.length = cs.length ∧
        (∀ m, m < i → cs2.getD m default = cs.getD m default ∧
          ks2.getD m 0 = ks.getD m 0) ∧
        (∀ m, i ≤ m → m < cs.length →
          ks2.getD m 0 = ks.getD i 0 + (m - i) + 1 ∧
          peek_last rowOf (cs2.getD m default) = S[ks.getD i 0 + (m - i)]?) := by
    intro i cs ks habs hi hroom
    have hsfx : Sfx tables rowOf f S (cs.getD i default) (ks.getD i 0) :=
      habs.2 i hi
    have hilen : i < ks.length := by have hh := habs.1; omega
    have haN : ks.getD i 0 < S.length := by omega
    obtain ⟨hemit, hsfx2, hpeek2, hidx2⟩ := cursorNext_sfx_lt tables rowOf f hsfx haN
    obtain ⟨x, hx⟩ : ∃ x, S[ks.getD i 0]? = some x := by
      rw [List.getElem?_eq_getElem haN]; exact ⟨_, rfl⟩
    have habs1 : AbsState tables rowOf f S
        (cs.set i (cursorNext tables rowOf f (cs.getD i default)).2)
        (ks.set i (ks.getD i 0 + 1)) :=
      AbsState.update tables rowOf f habs i _ _ hsfx2
    have hinner := innerFor_spec tables rowOf f (cs.length - (i + 1)) (i + 1) _ _
      habs1 (by simp [List.length_set]; omega) (by omega)
    have hget : (ks.set i (ks.getD i 0 + 1)).getD (i + 1 - 1) 0 =
        ks.getD i 0 + 1 := by
      rw [show i + 1 - 1 = i from rfl]
      exact getD_set_self _ _ _ _ hilen
    rw [if_pos (by rw [hget]; omega)] at hinner
    obtain ⟨cs2, ks2, hok, habs2, hlen2, hlow, hhigh⟩ := hinner
    have hstep : outerFor tables rowOf f cs.length cs
        ((List.range (i + 1)).reverse) = (some cs2, cs2) := by
      rw [range_reverse_succ,
        outerFor_cons tables rowOf f cs.length i ((List.range i).reverse) cs,
        show (cursorNext tables rowOf f (cs.getD i default)).1 = some x from
          by rw [hemit, hx]]
      rw [hok]
    refine ⟨cs2, ks2, hstep, habs2, by rw [hlen2, List.length_set], ?_, ?_⟩
    · intro m hm
      obtain ⟨e1, e2⟩ := hlow m (by omega)
      rw [e1, e2, getD_set_ne _ _ _ _ _ (by omega),
        getD_set_ne _ _ _ _ _ (by omega)]
      exact ⟨rfl, rfl⟩
    · intro m hmi hmlen
      rcases Nat.eq_or_lt_of_le hmi with hmi2 | hmi2
      · subst hmi2
        obtain ⟨e1, e2⟩ := hlow i (by omega)
        rw [e1, e2, getD_set_self _ _ _ _ (by omega),
          getD_set_self _ _ _ _ (by omega)]
        refine ⟨by omega, ?_⟩
        rw [hpeek2]
        congr 1
        omega
      · obtain ⟨e1, e2⟩ := hhigh m (by omega) (by rwa [List.length_set])
        rw [hget] at e1 e2
        refine ⟨by rw [e1]; omega, ?_⟩
        rw [e2]
        congr 1
        omega
  intro i
  induction i with
  | zero =>
    intro cs ks istar habs hi histar hroom hnoroom
    have h0 : istar = 0 := by omega
    subst h0
    exact hdirect 0 cs ks habs hi hroom
  | succ i ih =>
    intro cs ks istar habs hi histar hroom hnoroom
    by_cases hieq : istar = i + 1
    · subst hieq
      exact hdirect (i + 1) cs ks habs hi hroom
    · have histar2 : istar ≤ i := by omega
      have hnr : S.length ≤ ks.getD (i + 1) 0 + (cs.length - 1 - (i + 1)) :=
        hnoroom (i + 1) (by omega) hi
      have hsfx : Sfx tables rowOf f S (cs.getD (i + 1) default)
          (ks.getD (i + 1) 0) := habs.2 (i + 1) hi
      have hilen : i + 1 < ks.length := by have hh := habs.1; omega
      rcases Nat.lt_or_ge (ks.getD (i + 1) 0) S.length with haN | haN
      · -- cursor i+1 advances but propagation fails; continue at i
        obtain ⟨hemit, hsfx2, -, -⟩ := cursorNext_sfx_lt tables rowOf f hsfx haN
        obtain ⟨x, hx⟩ : ∃ x, S[ks.getD (i + 1) 0]? = some x := by
          rw [List.getElem?_eq_getElem haN]; exact ⟨_, rfl⟩
        have habs1 : AbsState tables rowOf f S
            (cs.set (i + 1) (cursorNext tables rowOf f (cs.getD (i + 1) default)).2)
            (ks.set (i + 1) (ks.getD (i + 1) 0 + 1)) :=
          AbsState.update tables rowOf f habs (i + 1) _ _ hsfx2
        have hinner := innerFor_spec tables rowOf f (cs.length - (i + 2)) (i + 2) _ _
          habs1 (by simp [List.length_set]; omega) (by omega)
        have hget1 : (ks.set (i + 1) (ks.getD (i + 1) 0 + 1)).getD (i + 1) 0 =
            ks.getD (i + 1) 0 + 1 := getD_set_self _ _ _ _ hilen
        rw [if_neg (by
          rw [show i + 2 - 1 = i + 1 from rfl, hget1]
          omega)] at hinner
        obtain ⟨cs2, ks2, hfail, habs2, hlen2, hlow, hhigh⟩ := hinner
        have hroom2 : ks2.getD istar 0 + (cs2.length - 1 - istar) < S.length := by
          obtain ⟨-, e2⟩ := hlow istar (by omega)
          rw [hlen2, List.length_set, e2, getD_set_ne _ _ _ _ _ (by omega)]
          exact hroom
        have hnoroom2 : ∀ j, istar < j → j < cs2.length →
            S.length ≤ ks2.getD j 0 + (cs2.length - 1 - j) := by
          intro j hji hj
          rw [hlen2, List.length_set] at hj ⊢
          rcases Nat.lt_or_ge j (i + 2) with hji2 | hji2
          · obtain ⟨-, e2⟩ := hlow j hji2
            by_cases hje : i + 1 = j
            · rw [e2, ← hje, hget1]
              omega
            · rw [e2, getD_set_ne _ _ _ _ _ hje]
              exact hnoroom j hji hj
          · rcases hhigh j hji2 (by rwa [List.length_set]) with hc | hc
            · rw [List.length_set] at hc
              omega
            · rw [hc, getD_set_ne _ _ _ _ _ (by omega)]
              exact hnoroom j hji hj
        have hrec := ih cs2 ks2 istar habs2
          (by rw [hlen2, List.length_set]; omega) histar2 hroom2 hnoroom2
        obtain ⟨cs3, ks3, hout, habs3, hlen3, hlowF, hhighF⟩ := hrec
        have hstep : outerFor tables rowOf f cs.length cs
            ((List.range (i + 2)).reverse) = (some cs3, cs3) := by
          rw [range_reverse_succ,
            outerFor_cons tables rowOf f cs.length (i + 1)
              ((List.range (i + 1)).reverse) cs,
            show (cursorNext tables rowOf f (cs.getD (i + 1) default)).1 = some x from
              by rw [hemit, hx]]
          rw [show i + 1 + 1 = i + 2 from rfl, hfail]
          rw [show cs.length = cs2.length from by rw [hlen2, List.length_set]]
          exact hout
        have hek : ks2.getD istar 0 = ks.getD istar 0 := by
          obtain ⟨-, e2⟩ := hlow istar (by omega)
          rw [e2, getD_set_ne _ _ _ _ _ (by omega)]
        refine ⟨cs3, ks3, hstep, habs3,
          by rw [hlen3, hlen2, List.length_set], ?_, ?_⟩
        · intro m hm
          obtain ⟨e1, e2⟩ := hlowF m hm
          obtain ⟨e3, e4⟩ := hlow m (by omega)
          rw [e1, e2, e3, e4, getD_set_ne _ _ _ _ _ (by omega),
            getD_set_ne _ _ _ _ _ (by omega)]
          exact ⟨rfl, rfl⟩
        · intro m hmi hmlen
          rw [show cs.length = cs2.length from by rw [hlen2, List.length_set]] at hmlen
          obtain ⟨e1, e2⟩ := hhighF m hmi hmlen
          rw [hek] at e1 e2
          exact ⟨e1, e2⟩
      · -- cursor i+1 is exhausted; continue at i
        obtain ⟨hemit, hsfx2⟩ := cursorNext_sfx_ge tables rowOf f hsfx haN
        have habs1 : AbsState tables rowOf f S
            (cs.set (i + 1) (cursorNext tables rowOf f (cs.getD (i + 1) default)).2)
            (ks.set (i + 1) (ks.getD (i + 1) 0)) :=
          AbsState.update tables rowOf f habs (i + 1) _ _ hsfx2
        have hroom2 : (ks.set (i + 1) (ks.getD (i + 1) 0)).getD istar 0 +
            ((cs.set (i + 1) (cursorNext tables rowOf f (cs.getD (i + 1) default)).2).length - 1 - istar) <
            S.length := by
          rw [List.length_set, getD_set_ne _ _ _ _ _ (by omega)]
          exact hroom
        have hnoroom2 : ∀ j, istar < j →
            j < (cs.set (i + 1) (cursorNext tables rowOf f (cs.getD (i + 1) default)).2).length →
            S.length ≤ (ks.set (i + 1) (ks.getD (i + 1) 0)).getD j 0 +
              ((cs.set (i + 1) (cursorNext tables rowOf f (cs.getD (i + 1) default)).2).length - 1 - j) := by
          intro j hji hj
          rw [List.length_set] at hj ⊢
          by_cases hje : i + 1 = j
          · rw [← hje, getD_set_self _ _ _ _ hilen]
            exact hnoroom (i + 1) (by omega) hi
          · rw [getD_set_ne _ _ _ _ _ hje]
            exact hnoroom j hji hj
        have hrec := ih _ _ istar habs1
          (by rw [List.length_set]; omega) histar2 hroom2 hnoroom2
        obtain ⟨cs3, ks3, hout, habs3, hlen3, hlowF, hhighF⟩ := hrec
        have hstep : outerFor tables rowOf f cs.length cs
            ((List.range (i + 2)).reverse) = (some cs3, cs3) := by
          rw [range_reverse_succ,
            outerFor_cons tables rowOf f cs.length (i + 1)
              ((List.range (i + 1)).reverse) cs,
            hemit]
          rw [show cs.length =
            (cs.set (i + 1) (cursorNext tables rowOf f (cs.getD (i + 1) default)).2).length
            from by rw [List.length_set]]
          exact hout
        refine ⟨cs3, ks3, hstep, habs3, by rw [hlen3, List.length_set], ?_, ?_⟩
        · intro m hm
          obtain ⟨e1, e2⟩ := hlowF m hm
          rw [e1, e2, getD_set_ne _ _ _ _ _ (by omega),
            getD_set_ne _ _ _ _ _ (by omega)]
          exact ⟨rfl, rfl⟩
        · intro m hmi hmlen
          rw [show cs.length =
            (cs.set (i + 1) (cursorNext tables rowOf f (cs.getD (i + 1) default)).2).length
            from by rw [List.length_set]] at hmlen
          obtain ⟨e1, e2⟩ := hhighF m hmi hmlen
          rw [getD_set_ne _ _ _ _ _ (by omega)] at e1 e2
          exact ⟨e1, e2⟩

end CursorLemmas

/-! ## Pure combinatorics: strictly increasing position lists, lexicographic
order, and the reference enumeration `combos`. -/

theorem chain'_lt_all {x : Nat} {t : List Nat}
    (h : List.Chain' (fun a b => a < b) (x :: t)) : ∀ p ∈ t, x < p := by
  induction t generalizing x with
  | nil => intro p hp; cases hp
  | cons y t ih =>
    rw [List.chain'_cons] at h
    intro p hp
    rcases List.mem_cons.mp hp with hp | hp
    · rw [hp]; exact h.1
    · exact Nat.lt_trans h.1 (ih h.2 p hp)

theorem chain'_head_add {c : List Nat}
    (h : List.Chain' (fun a b => a < b) c) :
    ∀ m, m < c.length → c.getD 0 0 + m ≤ c.getD m 0 := by
  induction c with
  | nil => intro m hm; cases hm
  | cons y t ih =>
    intro m hm
    cases m with
    | zero => simp
    | succ m =>
      rw [List.getD_cons_zero, List.getD_cons_succ]
      rw [List.chain'_cons'] at h
      cases t with
      | nil => simp at hm
      | cons z t2 =>
        have hyz : y < z := h.1 z rfl
        have := ih h.2 m (by simpa using hm)
        rw [List.getD_cons_zero] at this
        omega

theorem getD_mem_of_lt {l : List Nat} {m : Nat} (h : m < l.length) :
    l.getD m 0 ∈ l := by
  rw [List.getD_eq_getElem?_getD, List.getElem?_eq_getElem h]
  exact List.getElem_mem h

theorem lex_irrefl : ∀ l : List Nat, ¬ List.Lex (fun a b => a < b) l l := by
  intro l
  induction l with
  | nil => intro h; cases h
  | cons x t ih =>
    intro h
    cases h with
    | cons h => exact ih h
    | rel h => omega

theorem lex_trans : ∀ {l1 l2 l3 : List Nat},
    List.Lex (fun a b => a < b) l1 l2 → List.Lex (fun a b => a < b) l2 l3 →
    List.Lex (fun a b => a < b) l1 l3 := by
  intro l1
  induction l1 with
  | nil =>
    intro l2 l3 h12 h23
    cases h12 with
    | nil =>
      cases h23 with
      | cons _ => exact List.Lex.nil
      | rel _ => exact List.Lex.nil
  | cons x t ih =>
    intro l2 l3 h12 h23
    cases h12 with
    | cons h12t =>
      cases h23 with
      | cons h23t => exact List.Lex.cons (ih h12t h23t)
      | rel hr => exact List.Lex.rel hr
    | rel hr12 =>
      cases h23 with
      | cons h23t => exact List.Lex.rel hr12
      | rel hr23 => exact List.Lex.rel (Nat.lt_trans hr12 hr23)

theorem lex_append_lt {t u v : List Nat} {x y : Nat} (h : x < y) :
    List.Lex (fun a b => a < b) (t ++ x :: u) (t ++ y :: v) := by
  induction t with
  | nil => exact List.Lex.rel h
  | cons z t ih => exact List.Lex.cons ih

theorem not_lex_range : ∀ (k b : Nat) (c : List Nat), c.length = k →
    List.Chain' (fun a b => a < b) c → (∀ p ∈ c, b ≤ p) →
    ¬ List.Lex (fun a b => a < b) c (List.range' b k) := by
  intro k
  induction k with
  | zero =>
    intro b c hlen _ _ h
    cases h
  | succ k ih =>
    intro b c hlen hch hge h
    rw [List.range'_succ] at h
    cases c with
    | nil => simp at hlen
    | cons x t =>
      cases h with
      | rel hr =>
        have := hge x (List.mem_cons_self _ _)
        omega
      | cons ht =>
        refine ih (b + 1) t (by simpa using hlen) (List.Chain'.tail hch) ?_ ht
        intro p hp
        have := chain'_lt_all hch p hp
        omega

theorem combos_mem_length {α : Type} : ∀ (k : Nat) (l : List α) (q : List α),
    q ∈ combos l k → q.length = k := by
  intro k
  induction k with
  | zero =>
    intro l q hq
    cases l <;> (rw [combos] at hq; simp at hq; rw [hq]; rfl)
  | succ k ih =>
    intro l
    induction l with
    | nil => intro q hq; rw [combos] at hq; cases hq
    | cons x xs ihl =>
      intro q hq
      rw [combos] at hq
      rcases List.mem_append.mp hq with hq | hq
      · obtain ⟨c, hc, hqc⟩ := List.mem_map.mp hq
        rw [← hqc]
        simp [ih xs c hc]
      · exact ihl q hq

theorem combos_subset {α : Type} : ∀ (k : Nat) (l : List α) (q : List α),
    q ∈ combos l k → ∀ y ∈ q, y ∈ l := by
  intro k
  induction k with
  | zero =>
    intro l q hq
    cases l <;> (rw [combos] at hq; simp at hq; rw [hq]; intro y hy; cases hy)
  | succ k ih =>
    intro l
    induction l with
    | nil => intro q hq; rw [combos] at hq; cases hq
    | cons x xs ihl =>
      intro q hq y hy
      rw [combos] at hq
      rcases List.mem_append.mp hq with hq | hq
      · obtain ⟨c, hc, hqc⟩ := List.mem_map.mp hq
        rw [← hqc] at hy
        rcases List.mem_cons.mp hy with hy | hy
        · rw [hy]; exact List.mem_cons_self _ _
        · exact List.mem_cons_of_mem _ (ih xs c hc y hy)
      · exact List.mem_cons_of_mem _ (ihl q hq y hy)

theorem combos_length {α : Type} : ∀ (k : Nat) (l : List α),
    (combos l k).length = l.length.choose k := by
  intro k
  induction k with
  | zero => intro l; cases l <;> simp [combos]
  | succ k ih =>
    intro l
    induction l with
    | nil => simp [combos]
    | cons x xs ihl =>
      rw [combos]
      simp only [List.length_append, List.length_map, ih xs, ihl,
        List.length_cons]
      rw [Nat.choose_succ_succ]

theorem combos_nil_of_lt {α : Type} (k : Nat) (l : List α)
    (h : l.length < k) : combos l k = [] := by
  have hlen := combos_length k l
  rw [Nat.choose_eq_zero_of_lt h] at hlen
  exact List.eq_nil_of_length_eq_zero hlen

theorem combos_sorted : ∀ (k : Nat) (l : List Nat),
    List.Pairwise (fun a b => a < b) l →
    List.Pairwise (List.Lex (fun a b => a < b)) (combos l k) := by
  intro k
  induction k with
  | zero => intro l _; cases l <;> simp [combos]
  | succ k ih =>
    intro l
    induction l with
    | nil => intro _; rw [combos]; exact List.Pairwise.nil
    | cons x xs ihl =>
      intro hp
      have hxall : ∀ y ∈ xs, x < y := (List.pairwise_cons.mp hp).1
      have hxs : List.Pairwise (fun a b => a < b) xs :=
        (List.pairwise_cons.mp hp).2
      rw [combos, List.pairwise_append]
      refine ⟨?_, ihl hxs, ?_⟩
      · exact List.Pairwise.map _ (fun a b hab => List.Lex.cons hab) (ih xs hxs)
      · intro c1 hc1 d hd
        obtain ⟨c, hc, hqc⟩ := List.mem_map.mp hc1
        have hdlen : d.length = k + 1 := combos_mem_length (k + 1) xs d hd
        cases d with
        | nil => simp at hdlen
        | cons d0 dt =>
          have hd0 : d0 ∈ xs :=
            combos_subset (k + 1) xs (d0 :: dt) hd d0 (List.mem_cons_self _ _)
          rw [← hqc]
          exact List.Lex.rel (hxall d0 hd0)

theorem combos_head {α : Type} : ∀ (k : Nat) (l : List α), 0 < k →
    k ≤ l.length → (combos l k).head? = some (l.take k) := by
  intro k
  induction k with
  | zero => intro l h; omega
  | succ k ih =>
    intro l _ hk
    cases l with
    | nil => simp at hk
    | cons x xs =>
      rw [combos, List.head?_append, List.head?_map]
      cases k with
      | zero => rw [combos]; rfl
      | succ k2 =>
        rw [ih xs (Nat.succ_pos _) (by simpa using hk)]
        rfl

theorem mem_combos_range' : ∀ (n s k : Nat) (q : List Nat),
    q ∈ combos (List.range' s n) k ↔
      (q.length = k ∧ q.Chain' (fun a b => a < b) ∧
        ∀ p ∈ q, s ≤ p ∧ p < s + n) := by
  intro n
  induction n with
  | zero =>
    intro s k q
    cases k with
    | zero =>
      rw [combos]
      simp only [List.mem_singleton]
      constructor
      · intro h
        rw [h]
        exact ⟨rfl, List.chain'_nil, fun p hp => by cases hp⟩
      · rintro ⟨h1, -, -⟩
        exact List.eq_nil_of_length_eq_zero h1
    | succ k =>
      rw [show List.range' s 0 = [] from rfl, combos]
      constructor
      · intro h; cases h
      · rintro ⟨h1, -, h3⟩
        cases q with
        | nil => cases h1
        | cons p t =>
          have := h3 p (List.mem_cons_self _ _)
          omega
  | succ n ih =>
    intro s k q
    rw [List.range'_succ]
    cases k with
    | zero =>
      rw [combos]
      simp only [List.mem_singleton]
      constructor
      · intro h
        rw [h]
        exact ⟨rfl, List.chain'_nil, fun p hp => by cases hp⟩
      · rintro ⟨h1, -, -⟩
        exact List.eq_nil_of_length_eq_zero h1
    | succ k =>
      rw [combos]
      constructor
      · intro hq
        rcases List.mem_append.mp hq with hq | hq
        · obtain ⟨c, hc, hqc⟩ := List.mem_map.mp hq
          obtain ⟨hl, hch, hbd⟩ := (ih (s + 1) k c).mp hc
          rw [← hqc]
          refine ⟨by simp [hl], ?_, ?_⟩
          · rw [List.chain'_cons']
            refine ⟨?_, hch⟩
            intro y hy
            cases c with
            | nil => cases hy
            | cons c0 ct =>
              have hyc : c0 = y := by simpa using hy
              have := hbd c0 (List.mem_cons_self _ _)
              omega
          · intro p hp
            rcases List.mem_cons.mp hp with hp | hp
            · omega
            · have := hbd p hp
              omega
        · obtain ⟨hl, hch, hbd⟩ := (ih (s + 1) (k + 1) q).mp hq
          refine ⟨hl, hch, ?_⟩
          intro p hp
          have := hbd p hp
          omega
      · rintro ⟨hl, hch, hbd⟩
        cases q with
        | nil => cases hl
        | cons q0 t =>
          have hq0 : s ≤ q0 ∧ q0 < s + (n + 1) :=
            hbd q0 (List.mem_cons_self _ _)
          rcases Nat.eq_or_lt_of_le hq0.1 with he | he
          · refine List.mem_append.mpr (Or.inl ?_)
            refine List.mem_map.mpr ⟨t, ?_, by rw [he]⟩
            refine (ih (s + 1) k t).mpr ⟨by simpa using hl,
              List.Chain'.tail hch, ?_⟩
            intro p hp
            have h1 : q0 < p := chain'_lt_all hch p hp
            have h2 := hbd p (List.mem_cons_of_mem _ hp)
            omega
          · refine List.mem_append.mpr (Or.inr ?_)
            refine (ih (s + 1) (k + 1) (q0 :: t)).mpr ⟨hl, hch, ?_⟩
            intro p hp
            rcases List.mem_cons.mp hp with hp | hp
            · omega
            · have h1 : q0 < p := chain'_lt_all hch p hp
              have h2 := hbd p (List.mem_cons_of_mem _ hp)
              omega

theorem chain'_lt_iff_getD : ∀ (l : List Nat),
    l.Chain' (fun a b => a < b) ↔
      ∀ m, m + 1 < l.length → l.getD m 0 < l.getD (m + 1) 0 := by
  intro l
  induction l with
  | nil => simp
  | cons x t ih =>
    cases t with
    | nil => simp
    | cons y t2 =>
      rw [List.chain'_cons, ih]
      constructor
      · rintro ⟨hxy, hch⟩ m hm
        cases m with
        | zero => simpa using hxy
        | succ m =>
          rw [List.getD_cons_succ, List.getD_cons_succ]
          exact hch m (by simpa using hm)
      · intro h
        refine ⟨by simpa using h 0 (by simp), ?_⟩
        intro m hm
        have := h (m + 1) (by simpa using hm)
        rw [List.getD_cons_succ, List.getD_cons_succ] at this
        exact this

theorem forall_mem_lt_iff_getD (l : List Nat) (N : Nat) :
    (∀ p ∈ l, p < N) ↔ ∀ m, m < l.length → l.getD m 0 < N := by
  constructor
  · intro h m hm
    exact h _ (getD_mem_of_lt hm)
  · intro h p hp
    obtain ⟨n, hn, he⟩ := List.mem_iff_getElem.mp hp
    have := h n hn
    rw [List.getD_eq_getElem?_getD, List.getElem?_eq_getElem hn] at this
    rw [← he]
    exact this

theorem succAt_length {a : List Nat} {istar K : Nat} (h1 : istar ≤ a.length)
    (h2 : istar ≤ K) : (succAt a istar K).length = K := by
  rw [succAt, List.length_append, List.length_take, List.length_range']
  omega

theorem succAt_getD_lt {a : List Nat} {istar K m : Nat} (hm : m < istar)
    (hsz : istar ≤ a.length) :
    (succAt a istar K).getD m 0 = a.getD m 0 := by
  rw [succAt, List.getD_eq_getElem?_getD,
    List.getElem?_append_left (by rw [List.length_take]; omega),
    List.getElem?_take, if_pos hm, ← List.getD_eq_getElem?_getD]

theorem succAt_getD_ge {a : List Nat} {istar K m : Nat} (hm : istar ≤ m)
    (hm2 : m < K) (hsz : istar ≤ a.length) :
    (succAt a istar K).getD m 0 = a.getD istar 0 + 1 + (m - istar) := by
  rw [succAt, List.getD_eq_getElem?_getD,
    List.getElem?_append_right (by rw [List.length_take]; omega)]
  rw [List.length_take, Nat.min_eq_left hsz,
    List.getElem?_range' _ _ (by omega)]
  simp

theorem validCombo_tail {N K : Nat} {x : Nat} {t : List Nat}
    (h : validCombo N K (x :: t)) : validCombo N (K - 1) t := by
  obtain ⟨h1, h2, h3⟩ := h
  exact ⟨by simp at h1; omega, List.Chain'.tail h2,
    fun p hp => h3 p (List.mem_cons_of_mem _ hp)⟩

theorem validCombo_succAt {N K istar : Nat} {a : List Nat}
    (hv : validCombo N K a) (histar : istar < K)
    (hroom : a.getD istar 0 + (K - istar) < N) :
    validCombo N K (succAt a istar K) := by
  obtain ⟨hlen, hch, hbd⟩ := hv
  have hsz : istar ≤ a.length := by omega
  have hlen2 : (succAt a istar K).length = K := succAt_length hsz (by omega)
  refine ⟨hlen2, ?_, ?_⟩
  · rw [chain'_lt_iff_getD]
    intro m hm
    rw [hlen2] at hm
    rcases Nat.lt_or_ge (m + 1) istar with h1 | h1
    · rw [succAt_getD_lt (by omega) hsz, succAt_getD_lt h1 hsz]
      exact (chain'_lt_iff_getD a).mp hch m (by omega)
    · rcases Nat.lt_or_ge m istar with h2 | h2
      · have hmi : m + 1 = istar := by omega
        rw [succAt_getD_lt h2 hsz, succAt_getD_ge h1 (by omega) hsz]
        have := (chain'_lt_iff_getD a).mp hch m (by omega)
        rw [hmi] at this
        omega
      · rw [succAt_getD_ge h2 (by omega) hsz, succAt_getD_ge h1 (by omega) hsz]
        omega
  · rw [forall_mem_lt_iff_getD]
    intro m hm
    rw [hlen2] at hm
    rcases Nat.lt_or_ge m istar with h1 | h1
    · rw [succAt_getD_lt h1 hsz]
      rw [forall_mem_lt_iff_getD] at hbd
      exact hbd m (by omega)
    · rw [succAt_getD_ge h1 hm hsz]
      omega

theorem lex_lt_succAt {N K istar : Nat} {a : List Nat}
    (hv : validCombo N K a) (histar : istar < K) :
    List.Lex (fun a b => a < b) a (succAt a istar K) := by
  obtain ⟨hlen, -, -⟩ := hv
  have hsz : istar < a.length := by omega
  have hdecomp : a = a.take istar ++ a.getD istar 0 :: a.drop (istar + 1) := by
    rw [show a.getD istar 0 :: a.drop (istar + 1) = a.drop istar from ?_,
      List.take_append_drop]
    rw [List.drop_eq_getElem_cons hsz, List.getD_eq_getElem?_getD,
      List.getElem?_eq_getElem hsz]
    rfl
  have hsucc : succAt a istar K = a.take istar ++
      (a.getD istar 0 + 1) :: List.range' (a.getD istar 0 + 2) (K - istar - 1) := by
    rw [succAt, show K - istar = (K - istar - 1) + 1 from by omega,
      List.range'_succ]
    rfl
  rw [hsucc]
  nth_rewrite 1 [hdecomp]
  exact lex_append_lt (by omega)

/-- When every position of `a` is saturated (no room anywhere), `a` is the
lexicographically greatest valid combination. -/
theorem noroom_max : ∀ (a c : List Nat) (N : Nat),
    c.Chain' (fun a b => a < b) → (∀ p ∈ c, p < N) → c.length = a.length →
    (∀ j, j < a.length → N ≤ a.getD j 0 + (a.length - j)) →
    ¬ List.Lex (fun a b => a < b) a c := by
  intro a
  induction a with
  | nil =>
    intro c N _ _ hlen _ h
    rw [List.length_eq_zero.mp hlen] at h
    cases h
  | cons a0 a2 ih =>
    intro c N hch hbd hlen hnr h
    cases c with
    | nil => cases h
    | cons c0 c2 =>
      cases h with
      | rel hr =>
        have hlast := chain'_head_add hch (c0 :: c2).length.pred
          (by simp)
        have hmem : (c0 :: c2).getD (c0 :: c2).length.pred 0 < N :=
          hbd _ (getD_mem_of_lt (by simp))
        have h0 := hnr 0 (by simp)
        rw [List.getD_cons_zero] at h0 hlast
        simp only [List.length_cons, Nat.pred_succ] at hlast hmem
        simp only [List.length_cons] at hlen h0
        omega
      | cons ht =>
        refine ih c2 N (List.Chain'.tail hch)
          (fun p hp => hbd p (List.mem_cons_of_mem _ hp))
          (by simpa using hlen) ?_ ht
        intro j hj
        have := hnr (j + 1) (by simpa using hj)
        rw [List.getD_cons_succ] at this
        simp only [List.length_cons] at this
        omega

/-- `succAt a istar` is the least valid combination lexicographically above
`a`, provided `istar` is the greatest index with room. -/
theorem succAt_min : ∀ (istar : Nat) (a c : List Nat) (N : Nat),
    validCombo N a.length a → validCombo N a.length c →
    (∀ j, istar < j → j < a.length → N ≤ a.getD j 0 + (a.length - j)) →
    istar < a.length →
    List.Lex (fun a b => a < b) a c →
    ¬ List.Lex (fun a b => a < b) c (succAt a istar a.length) := by
  intro istar
  induction istar with
  | zero =>
    intro a c N hva hvc hnr histar hac
    cases a with
    | nil => simp at histar
    | cons a0 a2 =>
      have hsucc : succAt (a0 :: a2) 0 (a0 :: a2).length =
          List.range' (a0 + 1) (a0 :: a2).length := by
        rw [succAt]
        rfl
      cases c with
      | nil => cases hac
      | cons c0 c2 =>
        cases hac with
        | rel hr =>
          rw [hsucc]
          refine not_lex_range _ _ _ (by rw [hvc.1]) hvc.2.1 ?_
          intro p hp
          rcases List.mem_cons.mp hp with hp | hp
          · omega
          · have := chain'_lt_all hvc.2.1 p hp
            omega
        | cons ht =>
          exfalso
          refine noroom_max a2 c2 N (List.Chain'.tail hvc.2.1)
            (fun p hp => hvc.2.2 p (List.mem_cons_of_mem _ hp))
            ?_ ?_ ht
          · have h1 := hva.1
            have h2 := hvc.1
            simp only [List.length_cons] at h1 h2
            omega
          · intro j hj
            have := hnr (j + 1) (by omega) (by simpa using hj)
            rw [List.getD_cons_succ] at this
            simp only [List.length_cons] at this
            omega
  | succ istar ih =>
    intro a c N hva hvc hnr histar hac
    cases a with
    | nil => simp at histar
    | cons a0 a2 =>
      have hsucc : succAt (a0 :: a2) (istar + 1) (a0 :: a2).length =
          a0 :: succAt a2 istar a2.length := by
        rw [succAt, succAt]
        simp only [List.length_cons, List.take_succ_cons, List.getD_cons_succ]
        rw [Nat.succ_sub_succ]
        rfl
      rw [hsucc]
      cases c with
      | nil => cases hac
      | cons c0 c2 =>
        cases hac with
        | rel hr =>
          intro h
          cases h with
          | rel hr2 => omega
          | cons ht2 => omega
        | cons ht =>
          intro h
          cases h with
          | rel hr2 => omega
          | cons ht2 =>
            refine ih a2 c2 N ?_ ?_ ?_ (by simpa using histar) ht ht2
            · have := validCombo_tail (show validCombo N (a0 :: a2).length (a0 :: a2) from hva)
              simpa using this
            · have := validCombo_tail hvc
              simpa using this
            · intro j hj hj2
              have := hnr (j + 1) (by omega) (by simpa using hj2)
              rw [List.getD_cons_succ] at this
              simp only [List.length_cons] at this
              omega

theorem exists_greatest (P : Nat → Prop) [DecidablePred P] : ∀ (K : Nat),
    (∃ j, j < K ∧ P j) →
    ∃ j, j < K ∧ P j ∧ ∀ j2, j < j2 → j2 < K → ¬ P j2 := by
  intro K
  induction K with
  | zero => rintro ⟨j, hj, -⟩; omega
  | succ K ih =>
    rintro ⟨j, hj, hP⟩
    by_cases hK : P K
    · exact ⟨K, Nat.lt_succ_self _, hK, fun j2 h1 h2 => by omega⟩
    · have hjK : j < K := by
        rcases Nat.lt_or_ge j K with h | h
        · exact h
        · exfalso
          apply hK
          rw [show K = j from by omega]
          exact hP
      obtain ⟨j2, hj2, hP2, habove⟩ := ih ⟨j, hjK, hP⟩
      refine ⟨j2, by omega, hP2, ?_⟩
      intro j3 h1 h2
      rcases Nat.lt_or_ge j3 K with h | h
      · exact habove j3 h1 h
      · rw [show j3 = K from by omega]
        exact hK

theorem mem_combos_range (N K : Nat) (q : List Nat) :
    q ∈ combos (List.range N) K ↔ validCombo N K q := by
  rw [List.range_eq_range', mem_combos_range', validCombo]
  constructor
  · rintro ⟨h1, h2, h3⟩
    exact ⟨h1, h2, fun p hp => by have := h3 p hp; omega⟩
  · rintro ⟨h1, h2, h3⟩
    exact ⟨h1, h2, fun p hp => ⟨Nat.zero_le _, by have := h3 p hp; omega⟩⟩

/-! ## The combination iterator: `fetch_next` against the reference
enumeration -/

section CombinationLemmas

variable {E : Type} (tables : Nat → List E) (rowOf : E → Nat → Nat)
variable (f : E → Nat → Bool)

theorem getD_map_add_one (ps : List Nat) (m : Nat) (h : m < ps.length) :
    (ps.map (fun p => p + 1)).getD m 0 = ps.getD m 0 + 1 := by
  rw [List.getD_eq_getElem?_getD, List.getElem?_map,
    List.getElem?_eq_getElem h]
  rw [List.getD_eq_getElem?_getD, List.getElem?_eq_getElem h]
  rfl

/-- The `peek_last().unwrap()` collection never panics on a state whose
peeks refetch in-bounds stream items. -/
theorem mapM_peek_eq [Inhabited E] (S : List (E × Nat)) :
    ∀ (cs : List (Cursor E)) (ps : List Nat), cs.length = ps.length →
    (∀ m, m < cs.length →
      peek_last rowOf (cs.getD m default) = S[ps.getD m 0]?) →
    (∀ p ∈ ps, p < S.length) →
    cs.mapM (peek_last rowOf) = some (ps.map (fun p => S.getD p default)) := by
  intro cs
  induction cs with
  | nil =>
    intro ps hlen hpk hbd
    rw [List.length_nil] at hlen
    rw [List.length_eq_zero.mp hlen.symm]
    rfl
  | cons c ct ih =>
    intro ps hlen hpk hbd
    cases ps with
    | nil => simp at hlen
    | cons p pt =>
      have hp : p < S.length := hbd p (List.mem_cons_self _ _)
      have h0 := hpk 0 (by simp)
      rw [List.getD_cons_zero, List.getD_cons_zero] at h0
      have hrec := ih pt (by simpa using hlen)
        (fun m hm => by
          have h1 := hpk (m + 1) (by simp only [List.length_cons]; omega)
          rwa [List.getD_cons_succ, List.getD_cons_succ] at h1)
        (fun r hr => hbd r (List.mem_cons_of_mem _ hr))
      have hg : S.getD p default = S[p] := by
        rw [List.getD_eq_getElem?_getD, List.getElem?_eq_getElem hp]
        rfl
      rw [List.mapM_cons, h0, hrec, List.getElem?_eq_getElem hp]
      simp only [List.map_cons, hg]
      rfl

theorem collectOutputs_succ (fuel : Nat) (cs : List (Cursor E)) :
    collectOutputs tables rowOf f (fuel + 1) cs =
      match (fetch_next tables rowOf f cs).1 with
      | some items => items ::
          collectOutputs tables rowOf f fuel (fetch_next tables rowOf f cs).2
      | none => [] := by
  simp only [collectOutputs]
  cases hr : fetch_next tables rowOf f cs with
  | mk o c2 => cases o <;> rfl

theorem collect_of_none {cs : List (Cursor E)}
    (h : (fetch_next tables rowOf f cs).1 = none) :
    ∀ fuel, collectOutputs tables rowOf f fuel cs = [] := by
  intro fuel
  cases fuel with
  | zero => rfl
  | succ fuel => rw [collectOutputs_succ, h]

theorem fetchIterate_zero (cs : List (Cursor E)) :
    fetchIterate tables rowOf f 0 cs = fetch_next tables rowOf f cs := rfl

theorem fetchIterate_succ (n : Nat) (cs : List (Cursor E)) :
    fetchIterate tables rowOf f (n + 1) cs =
      fetchIterate tables rowOf f n (fetch_next tables rowOf f cs).2 := rfl

/-- A room-less cursor array: `fetch_next` yields no combination and leaves
the array room-less again. -/
theorem fetch_next_abs_none {S : List (E × Nat)} {cs : List (Cursor E)}
    {ks : List Nat} (habs : AbsState tables rowOf f S cs ks)
    (hK : 1 ≤ cs.length)
    (hnr : ∀ j, j < cs.length → S.length ≤ ks.getD j 0 + (cs.length - 1 - j)) :
    ∃ cs2 ks2, fetch_next tables rowOf f cs = (none, cs2) ∧
      AbsState tables rowOf f S cs2 ks2 ∧ cs2.length = cs.length ∧
      (∀ j, j < cs2.length →
        S.length ≤ ks2.getD j 0 + (cs2.length - 1 - j)) := by
  obtain ⟨cs2, ks2, houter, habs2, hlen2, hnr2⟩ :=
    outerFor_none tables rowOf f (cs.length - 1) cs ks habs (by omega) hnr
  rw [show cs.length - 1 + 1 = cs.length from by omega] at houter
  refine ⟨cs2, ks2, ?_, habs2, hlen2, ?_⟩
  · unfold fetch_next
    rw [if_neg (by omega), houter]
  · intro j hj
    rw [hlen2] at hj ⊢
    exact hnr2 j hj

/-- A successful carry step: when `istar` is the highest cursor with room,
`fetch_next` from the canonical state after `ps` emits exactly the
combination `succAt ps istar` and re-establishes the canonical state. -/
theorem fetch_next_canon_succ [Inhabited E] {S : List (E × Nat)}
    {cs : List (Cursor E)} {ps : List Nat} {istar : Nat}
    (hcan : Canon tables rowOf f S cs ps)
    (hv : validCombo S.length cs.length ps)
    (histar : istar < cs.length)
    (hroom : ps.getD istar 0 + (cs.length - istar) < S.length)
    (hnr : ∀ j, istar < j → j < cs.length →
      S.length ≤ ps.getD j 0 + (cs.length - j)) :
    ∃ cs2, fetch_next tables rowOf f cs =
        (some ((succAt ps istar cs.length).map
          (fun p => S.getD p default)), cs2) ∧
      Canon tables rowOf f S cs2 (succAt ps istar cs.length) ∧
      cs2.length = cs.length := by
  obtain ⟨habs, hlenc, hpk⟩ := hcan
  have hplen : ps.length = cs.length := hv.1
  have hmroom : (ps.map fun p => p + 1).getD istar 0 +
      (cs.length - 1 - istar) < S.length := by
    rw [getD_map_add_one ps istar (by omega)]
    omega
  have hmnr : ∀ j, istar < j → j < cs.length →
      S.length ≤ (ps.map fun p => p + 1).getD j 0 + (cs.length - 1 - j) := by
    intro j h1 h2
    rw [getD_map_add_one ps j (by omega)]
    have := hnr j h1 h2
    omega
  obtain ⟨cs2, ks2, houter, habs2, hlen2, hlow, hhigh⟩ :=
    outerFor_succ tables rowOf f (cs.length - 1) cs (ps.map fun p => p + 1)
      istar habs (by omega) (by omega) hmroom hmnr
  rw [show cs.length - 1 + 1 = cs.length from by omega] at houter
  set ps2 := succAt ps istar cs.length with hps2
  have hvs : validCombo S.length cs.length ps2 :=
    validCombo_succAt hv histar hroom
  have hps2len : ps2.length = cs.length := hvs.1
  have hI : (ps.map fun p => p + 1).getD istar 0 = ps.getD istar 0 + 1 :=
    getD_map_add_one ps istar (by omega)
  have hpk2 : ∀ m, m < cs2.length →
      peek_last rowOf (cs2.getD m default) = S[ps2.getD m 0]? := by
    intro m hm
    rw [hlen2] at hm
    rcases Nat.lt_or_ge m istar with h1 | h1
    · obtain ⟨e1, -⟩ := hlow m h1
      rw [e1, hpk m hm, hps2, succAt_getD_lt h1 (by omega)]
    · obtain ⟨-, e2⟩ := hhigh m h1 hm
      rw [e2, hI, hps2, succAt_getD_ge h1 hm (by omega)]
  have hks2 : ∀ m, m < cs2.length →
      ks2.getD m 0 = (ps2.map fun p => p + 1).getD m 0 := by
    intro m hm
    rw [hlen2] at hm
    rw [getD_map_add_one ps2 m (by omega)]
    rcases Nat.lt_or_ge m istar with h1 | h1
    · obtain ⟨-, e2⟩ := hlow m h1
      rw [e2, getD_map_add_one ps m (by omega), hps2,
        succAt_getD_lt h1 (by omega)]
    · obtain ⟨e1, -⟩ := hhigh m h1 hm
      rw [e1, hI, hps2, succAt_getD_ge h1 hm (by omega)]
  have habs3 : AbsState tables rowOf f S cs2 (ps2.map fun p => p + 1) := by
    refine ⟨by rw [hlen2, List.length_map, hps2len], ?_⟩
    intro j hj
    have hs := habs2.2 j hj
    rwa [hks2 j hj] at hs
  have hmapm : cs2.mapM (peek_last rowOf) =
      some (ps2.map fun p => S.getD p default) :=
    mapM_peek_eq rowOf S cs2 ps2 (by rw [hlen2, hps2len]) hpk2 hvs.2.2
  refine ⟨cs2, ?_, ⟨habs3, by rw [hlen2, hps2len], hpk2⟩, hlen2⟩
  unfold fetch_next
  rw [if_neg (by omega), houter]
  show (cs2.mapM (peek_last rowOf), cs2) = _
  rw [hmapm]

/-- The freshly initialised cursor array: cursor 0 holds the full id list at
stream position 0, cursors 1..K-1 are empty (position `S.length`). -/
theorem combinationCursors_abs (ids0 : List Nat) (K : Nat) (hK : 1 ≤ K) :
    (combinationCursors (E := E) K ids0).length = K ∧
    AbsState tables rowOf f (streamOf tables rowOf f ids0)
      (combinationCursors K ids0)
      (0 :: List.replicate (K - 1) (streamOf tables rowOf f ids0).length) := by
  cases K with
  | zero => omega
  | succ k =>
    have hcc : combinationCursors (E := E) (k + 1) ids0 =
        initCursor ids0 :: List.replicate k initEmptyCursor := rfl
    refine ⟨by rw [hcc]; simp [List.length_replicate], ?_, ?_⟩
    · rw [hcc]
      simp [List.length_replicate]
    · intro j hj
      rw [hcc, List.length_cons, List.length_replicate] at hj
      cases j with
      | zero =>
        rw [hcc]
        show Sfx tables rowOf f _ (initCursor ids0) 0
        refine ⟨⟨rfl, Nat.le_refl 0⟩, Nat.zero_le _, ?_⟩
        show futureOf tables rowOf f (initCursor ids0) = _
        rw [List.drop_zero]
        rfl
      | succ j =>
        rw [hcc]
        have hget : ((initCursor (E := E) ids0) ::
            List.replicate k initEmptyCursor).getD (j + 1) default =
            initEmptyCursor := by
          rw [List.getD_cons_succ, List.getD_eq_getElem?_getD,
            List.getElem?_replicate, if_pos (by omega)]
          rfl
        have hgetk : ((0 : Nat) :: List.replicate (k + 1 - 1)
            (streamOf tables rowOf f ids0).length).getD (j + 1) 0 =
            (streamOf tables rowOf f ids0).length := by
          rw [List.getD_cons_succ, List.getD_eq_getElem?_getD,
            List.getElem?_replicate, if_pos (by omega)]
          rfl
        rw [hget, hgetk]
        refine ⟨⟨rfl, Nat.le_refl 0⟩, Nat.le_refl _, ?_⟩
        show futureOf tables rowOf f initEmptyCursor = _
        rw [List.drop_length]
        rfl

/-- The first `fetch_next` after `QueryCombinationIter::new` with `K ≤ N`
emits the first `K` stream items and reaches the canonical state of the
combination `[0, ..., K-1]`. -/
theorem fetch_next_init_le [Inhabited E] (ids0 : List Nat) (K : Nat)
    (hK : 1 ≤ K) (hKN : K ≤ (streamOf tables rowOf f ids0).length) :
    ∃ cs2, fetch_next tables rowOf f (combinationCursors K ids0) =
        (some ((List.range K).map
          (fun p => (streamOf tables rowOf f ids0).getD p default)), cs2) ∧
      Canon tables rowOf f (streamOf tables rowOf f ids0) cs2
        (List.range K) ∧
      cs2.length = K := by
  set S := streamOf tables rowOf f ids0 with hS
  obtain ⟨hlen0, habs0⟩ := combinationCursors_abs tables rowOf f ids0 K hK
  set cs := combinationCursors (E := E) K ids0 with hcs
  set ks := (0 : Nat) :: List.replicate (K - 1) S.length with hks
  have hks0 : ks.getD 0 0 = 0 := rfl
  have hroom : ks.getD 0 0 + (cs.length - 1 - 0) < S.length := by
    rw [hks0, hlen0]
    omega
  have hnr : ∀ j, 0 < j → j < cs.length →
      S.length ≤ ks.getD j 0 + (cs.length - 1 - j) := by
    intro j h1 h2
    rw [hlen0] at h2
    rw [hks]
    cases j with
    | zero => omega
    | succ j =>
      rw [List.getD_cons_succ, List.getD_eq_getElem?_getD,
        List.getElem?_replicate, if_pos (by omega), Option.getD_some]
      omega
  obtain ⟨cs2, ks2, houter, habs2, hlen2, hlow, hhigh⟩ :=
    outerFor_succ tables rowOf f (cs.length - 1) cs ks 0 habs0 (by omega)
      (by omega) hroom hnr
  rw [show cs.length - 1 + 1 = cs.length from by omega] at houter
  have hpk2 : ∀ m, m < cs2.length →
      peek_last rowOf (cs2.getD m default) = S[(List.range K).getD m 0]? := by
    intro m hm
    rw [hlen2, hlen0] at hm
    obtain ⟨-, e2⟩ := hhigh m (Nat.zero_le m) (by omega)
    have him : ks.getD 0 0 + (m - 0) = m := by
      rw [hks0]
      omega
    rw [him] at e2
    have hr : (List.range K).getD m 0 = m := by
      rw [List.getD_eq_getElem?_getD, List.getElem?_range hm]
      rfl
    rw [e2, hr]
  have hks2 : ∀ m, m < cs2.length →
      ks2.getD m 0 = ((List.range K).map fun p => p + 1).getD m 0 := by
    intro m hm
    rw [hlen2, hlen0] at hm
    obtain ⟨e1, -⟩ := hhigh m (Nat.zero_le m) (by omega)
    have hr : (List.range K).getD m 0 = m := by
      rw [List.getD_eq_getElem?_getD, List.getElem?_range hm]
      rfl
    rw [e1, hks0, getD_map_add_one _ m (by simpa using hm), hr]
    omega
  have hvr : validCombo S.length K (List.range K) := by
    refine ⟨List.length_range K, ?_, ?_⟩
    · exact (List.pairwise_lt_range K).chain'
    · intro p hp
      rw [List.mem_range] at hp
      omega
  have hcan2 : Canon tables rowOf f S cs2 (List.range K) := by
    refine ⟨⟨?_, ?_⟩, ?_, hpk2⟩
    · rw [hlen2, hlen0, List.length_map, List.length_range]
    · intro j hj
      have hs := habs2.2 j hj
      rwa [hks2 j hj] at hs
    · rw [hlen2, hlen0, List.length_range]
  have hmapm : cs2.mapM (peek_last rowOf) =
      some ((List.range K).map fun p => S.getD p default) :=
    mapM_peek_eq rowOf S cs2 (List.range K)
      (by rw [hlen2, hlen0, List.length_range]) hpk2 hvr.2.2
  refine ⟨cs2, ?_, hcan2, by rw [hlen2, hlen0]⟩
  unfold fetch_next
  rw [if_neg (by omega), houter]
  show (cs2.mapM (peek_last rowOf), cs2) = _
  rw [hmapm]

theorem fetch_empty_terminal : ∀ (n : Nat),
    (fetchIterate tables rowOf f n ([] : List (Cursor E))).1 = none := by
  intro n
  induction n with
  | zero => rfl
  | succ n ih =>
    rw [fetchIterate_succ]
    exact ih

/-- From a room-less array, every subsequent `fetch_next` call yields no
combination. -/
theorem fetch_abs_terminal {S : List (E × Nat)} : ∀ (n : Nat)
    (cs : List (Cursor E)) (ks : List Nat),
    AbsState tables rowOf f S cs ks → 1 ≤ cs.length →
    (∀ j, j < cs.length → S.length ≤ ks.getD j 0 + (cs.length - 1 - j)) →
    (fetchIterate tables rowOf f n cs).1 = none := by
  intro n
  induction n with
  | zero =>
    intro cs ks habs hK hnr
    obtain ⟨cs2, ks2, hfe, -, -, -⟩ :=
      fetch_next_abs_none tables rowOf f habs hK hnr
    rw [fetchIterate_zero, hfe]
  | succ n ih =>
    intro cs ks habs hK hnr
    obtain ⟨cs2, ks2, hfe, habs2, hlen2, hnr2⟩ :=
      fetch_next_abs_none tables rowOf f habs hK hnr
    rw [fetchIterate_succ, hfe]
    exact ih cs2 ks2 habs2 (by omega) hnr2

/-- The chain argument: from the canonical state after `ps`, the remaining
output is exactly the (sorted) list of valid combinations above `ps`. -/
theorem collect_canon [Inhabited E] {S : List (E × Nat)} {K : Nat}
    (hK : 1 ≤ K) :
    ∀ (L : List (List Nat)) (cs : List (Cursor E)) (ps : List Nat)
      (fuel : Nat),
    Canon tables rowOf f S cs ps → validCombo S.length K ps →
    cs.length = K →
    List.Pairwise (List.Lex (fun a b => a < b)) L →
    (∀ q, q ∈ L ↔ (validCombo S.length K q ∧
      List.Lex (fun a b => a < b) ps q)) →
    L.length ≤ fuel →
    collectOutputs tables rowOf f fuel cs =
      L.map (fun q => q.map (fun p => S.getD p default)) := by
  intro L
  induction L with
  | nil =>
    intro cs ps fuel hcan hv hlen hsort hiff hfuel
    have hnr : ∀ j, j < K → S.length ≤ ps.getD j 0 + (K - j) := by
      intro j hj
      by_contra hlt
      have hroom : ps.getD j 0 + (K - j) < S.length := Nat.lt_of_not_le hlt
      have hvs := validCombo_succAt hv hj hroom
      have hlex := lex_lt_succAt hv hj
      exact (List.mem_nil_iff _).mp ((hiff (succAt ps j K)).mpr ⟨hvs, hlex⟩)
    have hplen : ps.length = K := hv.1
    have hmnr : ∀ j, j < cs.length →
        S.length ≤ (ps.map fun p => p + 1).getD j 0 + (cs.length - 1 - j) := by
      intro j hj
      rw [hlen] at hj ⊢
      rw [getD_map_add_one ps j (by omega)]
      have := hnr j hj
      omega
    obtain ⟨cs2, ks2, hfe, -, -, -⟩ :=
      fetch_next_abs_none tables rowOf f hcan.1 (by omega) hmnr
    rw [collect_of_none tables rowOf f (by rw [hfe]) fuel]
    rfl
  | cons q L2 ih =>
    intro cs ps fuel hcan hv hlen hsort hiff hfuel
    obtain ⟨hvq, hpsq⟩ := (hiff q).mp (List.mem_cons_self _ _)
    have hplen : ps.length = K := hv.1
    have hex : ∃ j, j < K ∧ ps.getD j 0 + (K - j) < S.length := by
      by_contra hno
      push_neg at hno
      refine noroom_max ps q S.length hvq.2.1 hvq.2.2 ?_ ?_ hpsq
      · rw [hvq.1, hplen]
      · intro j hj
        rw [hplen] at hj ⊢
        exact hno j hj
    obtain ⟨istar, histar, hroom, habove⟩ :=
      exists_greatest (fun j => ps.getD j 0 + (K - j) < S.length) K hex
    have hnr : ∀ j, istar < j → j < K →
        S.length ≤ ps.getD j 0 + (K - j) :=
      fun j h1 h2 => Nat.le_of_not_lt (habove j h1 h2)
    obtain ⟨cs2, hfe, hcan2, hlen2⟩ :=
      fetch_next_canon_succ tables rowOf f hcan
        (show validCombo S.length cs.length ps by rwa [hlen])
        (show istar < cs.length by omega)
        (show ps.getD istar 0 + (cs.length - istar) < S.length by
          rw [hlen]; exact hroom)
        (by simp only [hlen]; exact hnr)
    rw [hlen] at hfe hcan2 hlen2
    have hvs : validCombo S.length K (succAt ps istar K) :=
      validCombo_succAt hv histar hroom
    have hlexs : List.Lex (fun a b => a < b) ps (succAt ps istar K) :=
      lex_lt_succAt hv histar
    have hsmem := (hiff (succAt ps istar K)).mpr ⟨hvs, hlexs⟩
    have heq : q = succAt ps istar K := by
      rcases List.mem_cons.mp hsmem with h | h
      · exact h.symm
      · exfalso
        have hql := (List.pairwise_cons.mp hsort).1 _ h
        have hmin := succAt_min istar ps q S.length
          (by simp only [hplen]; exact hv) (by simp only [hplen]; exact hvq)
          (by simp only [hplen]; exact hnr) (by omega) hpsq
        rw [hplen] at hmin
        exact hmin hql
    rw [← heq] at hfe hcan2
    have hiff2 : ∀ r, r ∈ L2 ↔ (validCombo S.length K r ∧
        List.Lex (fun a b => a < b) q r) := by
      intro r
      constructor
      · intro hr
        refine ⟨((hiff r).mp (List.mem_cons_of_mem _ hr)).1, ?_⟩
        exact (List.pairwise_cons.mp hsort).1 r hr
      · rintro ⟨hvr, hqr⟩
        have hpr : List.Lex (fun a b => a < b) ps r := lex_trans hpsq hqr
        rcases List.mem_cons.mp ((hiff r).mpr ⟨hvr, hpr⟩) with h | h
        · exfalso
          rw [h] at hqr
          exact lex_irrefl q hqr
        · exact h
    cases fuel with
    | zero =>
      rw [List.length_cons] at hfuel
      omega
    | succ fuel2 =>
      have htail := ih cs2 q fuel2 hcan2 hvq hlen2
        (List.pairwise_cons.mp hsort).2 hiff2
        (by rw [List.length_cons] at hfuel; omega)
      rw [collectOutputs_succ, hfe]
      show ((q.map fun p => S.getD p default) ::
          collectOutputs tables rowOf f fuel2 cs2) = _
      rw [htail, List.map_cons]

end CombinationLemmas

/-- **C3** (amended): over a query with no per-row filter whose single-cursor
visiting order is the stream `S = streamOf tables rowOf (fun _ _ => true)
ids0` — so the query matches exactly `N = S.length` entities — repeatedly
fetching from the combination iterator with `K ≥ 1` cursors yields exactly
the `C(N, K)` combinations, namely the image of the lexicographically sorted
position combinations `combos (List.range N) K`, advancing right-to-left
with carry propagation; there are `0` results when `K > N`.  Amendment: for
`K = 0` the iterator yields no combination at all (its cursor array is
empty and `fetch_next` immediately returns no item), not the single empty
combination that `C(N, 0) = 1` would suggest; see
`combination_iter_K0_counterexample`. -/
theorem combination_iter_spec {E : Type} [Inhabited E] (tables : Nat → List E)
    (rowOf : E → Nat → Nat) (ids0 : List Nat) (K fuel : Nat) (hK : 1 ≤ K)
    (hfuel : (streamOf tables rowOf (fun _ _ => true) ids0).length.choose K ≤
      fuel) :
    collectOutputs tables rowOf (fun _ _ => true) fuel
        (combinationCursors K ids0) =
      (combos (List.range
          (streamOf tables rowOf (fun _ _ => true) ids0).length) K).map
        (fun q => q.map (fun p =>
          (streamOf tables rowOf (fun _ _ => true) ids0).getD p default)) ∧
    (collectOutputs tables rowOf (fun _ _ => true) fuel
        (combinationCursors K ids0)).length =
      (streamOf tables rowOf (fun _ _ => true) ids0).length.choose K ∧
    ((streamOf tables rowOf (fun _ _ => true) ids0).length < K →
      collectOutputs tables rowOf (fun _ _ => true) fuel
        (combinationCursors K ids0) = []) ∧
    List.Pairwise (List.Lex (fun a b => a < b))
      (combos (List.range
        (streamOf tables rowOf (fun _ _ => true) ids0).length) K) := by
  set f : E → Nat → Bool := fun _ _ => true with hf
  set S := streamOf tables rowOf f ids0 with hS
  set N := S.length with hN
  have hmain : collectOutputs tables rowOf f fuel (combinationCursors K ids0) =
      (combos (List.range N) K).map
        (fun q => q.map (fun p => S.getD p default)) := by
    rcases Nat.lt_or_ge N K with hNK | hNK
    · obtain ⟨hlen0, habs0⟩ := combinationCursors_abs tables rowOf f ids0 K hK
      have hnr : ∀ j, j < (combinationCursors (E := E) K ids0).length →
          N ≤ ((0 : Nat) :: List.replicate (K - 1) N).getD j 0 +
            ((combinationCursors (E := E) K ids0).length - 1 - j) := by
        intro j hj
        rw [hlen0] at hj ⊢
        cases j with
        | zero =>
          rw [List.getD_cons_zero]
          omega
        | succ j =>
          rw [List.getD_cons_succ, List.getD_eq_getElem?_getD,
            List.getElem?_replicate, if_pos (by omega), Option.getD_some]
          omega
      obtain ⟨cs2, ks2, hfe, -, -, -⟩ :=
        fetch_next_abs_none tables rowOf f habs0 (by omega) hnr
      rw [collect_of_none tables rowOf f (by rw [hfe]) fuel,
        combos_nil_of_lt K (List.range N) (by rwa [List.length_range])]
      rfl
    · obtain ⟨cs1, hfe1, hcan1, hlen1⟩ :=
        fetch_next_init_le tables rowOf f ids0 K hK hNK
      have hvr : validCombo N K (List.range K) := by
        refine ⟨List.length_range K, ?_, ?_⟩
        · exact (List.pairwise_lt_range K).chain'
        · intro p hp
          rw [List.mem_range] at hp
          omega
      have hsorted := combos_sorted K (List.range N) (List.pairwise_lt_range N)
      obtain ⟨t, hct⟩ : ∃ t, combos (List.range N) K = List.range K :: t := by
        have hh := combos_head K (List.range N) (by omega)
          (by rw [List.length_range]; exact hNK)
        rw [List.take_range, Nat.min_eq_left hNK] at hh
        cases hcl : combos (List.range N) K with
        | nil => rw [hcl] at hh; cases hh
        | cons c0 ct =>
          rw [hcl] at hh
          exact ⟨ct, by rw [Option.some.inj hh]⟩
      have hiff1 : ∀ r, r ∈ t ↔ (validCombo N K r ∧
          List.Lex (fun a b => a < b) (List.range K) r) := by
        intro r
        constructor
        · intro hr
          have hrc : r ∈ combos (List.range N) K := by
            rw [hct]
            exact List.mem_cons_of_mem _ hr
          refine ⟨(mem_combos_range N K r).mp hrc, ?_⟩
          have hh := hsorted
          rw [hct] at hh
          exact (List.pairwise_cons.mp hh).1 r hr
        · rintro ⟨hvr2, hlr⟩
          have hrc : r ∈ combos (List.range N) K :=
            (mem_combos_range N K r).mpr hvr2
          rw [hct] at hrc
          rcases List.mem_cons.mp hrc with h | h
          · exfalso
            rw [h] at hlr
            exact lex_irrefl _ hlr
          · exact h
      have hsort_t : List.Pairwise (List.Lex (fun a b => a < b)) t := by
        have hh := hsorted
        rw [hct] at hh
        exact hh.of_cons
      obtain ⟨fuel2, rfl⟩ : ∃ fuel2, fuel = fuel2 + 1 := by
        have hpos := Nat.choose_pos hNK
        cases fuel with
        | zero => exact absurd hfuel (Nat.not_le.mpr hpos)
        | succ fuel2 => exact ⟨fuel2, rfl⟩
      have hfuel3 : t.length ≤ fuel2 := by
        have hlc := combos_length K (List.range N)
        rw [hct, List.length_cons, List.length_range] at hlc
        omega
      have htail := collect_canon tables rowOf f hK t cs1 (List.range K) fuel2
        hcan1 hvr hlen1 hsort_t hiff1 hfuel3
      rw [collectOutputs_succ, hfe1]
      show ((List.range K).map fun p => S.getD p default) ::
          collectOutputs tables rowOf f fuel2 cs1 = _
      rw [htail, hct, List.map_cons]
  refine ⟨hmain, ?_, ?_,
    combos_sorted K (List.range N) (List.pairwise_lt_range N)⟩
  · rw [hmain, List.length_map, combos_length, List.length_range]
  · intro hlt
    rw [hmain, combos_nil_of_lt K (List.range N)
      (by rwa [List.length_range])]
    rfl

/-- **C3 witness**: three entities in one table, `K = 2`: the iterator
produces the three pairs `C(3, 2) = 3` in lexicographic order. -/
theorem combination_iter_spec_witness :
    1 ≤ 2 ∧
    (streamOf (fun _ => [5, 6, 7] : Nat → List Nat) (fun _ i => i)
      (fun _ _ => true) [0]).length.choose 2 ≤ 5 ∧
    (collectOutputs (fun _ => [5, 6, 7] : Nat → List Nat) (fun _ i => i)
        (fun _ _ => true) 5 (combinationCursors 2 [0]) =
      (combos (List.range (streamOf (fun _ => [5, 6, 7] : Nat → List Nat)
          (fun _ i => i) (fun _ _ => true) [0]).length) 2).map
        (fun q => q.map (fun p =>
          (streamOf (fun _ => [5, 6, 7] : Nat → List Nat) (fun _ i => i)
            (fun _ _ => true) [0]).getD p default)) ∧
    (collectOutputs (fun _ => [5, 6, 7] : Nat → List Nat) (fun _ i => i)
        (fun _ _ => true) 5 (combinationCursors 2 [0])).length =
      (streamOf (fun _ => [5, 6, 7] : Nat → List Nat) (fun _ i => i)
        (fun _ _ => true) [0]).length.choose 2 ∧
    ((streamOf (fun _ => [5, 6, 7] : Nat → List Nat) (fun _ i => i)
        (fun _ _ => true) [0]).length < 2 →
      collectOutputs (fun _ => [5, 6, 7] : Nat → List Nat) (fun _ i => i)
        (fun _ _ => true) 5 (combinationCursors 2 [0]) = []) ∧
    List.Pairwise (List.Lex (fun a b => a < b))
      (combos (List.range (streamOf (fun _ => [5, 6, 7] : Nat → List Nat)
        (fun _ i => i) (fun _ _ => true) [0]).length) 2)) :=
  ⟨by decide, by decide,
   combination_iter_spec (fun _ => [5, 6, 7]) (fun _ i => i) [0] 2 5
     (by decide) (by decide)⟩

/-- **C3 counterexample (original wording)**: with `K = 0` the iterator
yields no combination at all — `QueryCombinationIter::new` builds an empty
cursor array and `fetch_next` returns `None` immediately — although
`C(N, 0) = 1` for the matched count `N = 3`. -/
theorem combination_iter_K0_counterexample :
    Nat.choose 3 0 = 1 ∧
    (streamOf (fun _ => [5, 6, 7] : Nat → List Nat) (fun _ i => i)
      (fun _ _ => true) [0]).length = 3 ∧
    collectOutputs (fun _ => [5, 6, 7] : Nat → List Nat) (fun _ i => i)
      (fun _ _ => true) 5 (combinationCursors 0 [0]) = [] :=
  ⟨rfl, by decide, rfl⟩

/-- **C5**: the exhausted state is terminal at both levels.  (i) A
well-formed `QueryIterationCursor` (hence `QueryIter`, which delegates its
`next` to the cursor) whose `next` call has returned no item — its matched
id list is consumed — returns no item on every subsequent call.  (ii) A
`QueryCombinationIter` cursor array arising in iteration (empty array,
freshly initialised array, the canonical state after emitting some valid
combination, or a room-less array) whose `fetch_next` has returned no
combination returns no combination on every subsequent call: the iterator
never reactivates. -/
theorem query_exhausted_terminal {E : Type} [Inhabited E]
    (tables : Nat → List E) (rowOf : E → Nat → Nat) (f : E → Nat → Bool) :
    (∀ c : Cursor E, WFc c → (cursorNext tables rowOf f c).1 = none →
      ∀ n, (cursorIterate tables rowOf f n c).1 = none) ∧
    (∀ (S : List (E × Nat)) (cs : List (Cursor E)),
      (cs = [] ∨
       (∃ ids0, cs = combinationCursors cs.length ids0 ∧ 1 ≤ cs.length ∧
         S = streamOf tables rowOf f ids0) ∨
       (∃ ps, Canon tables rowOf f S cs ps ∧
         validCombo S.length cs.length ps ∧ 1 ≤ cs.length) ∨
       (∃ ks, AbsState tables rowOf f S cs ks ∧ 1 ≤ cs.length ∧
         ∀ j, j < cs.length →
           S.length ≤ ks.getD j 0 + (cs.length - 1 - j))) →
      (fetch_next tables rowOf f cs).1 = none →
      ∀ n, (fetchIterate tables rowOf f n cs).1 = none) := by
  constructor
  · intro c hwf hnone n
    exact cursor_exhausted_terminal tables rowOf f c hwf hnone n
  · rintro S cs (rfl | ⟨ids0, hcs, hK, rfl⟩ | ⟨ps, hcan, hv, hK⟩ |
      ⟨ks, habs, hK, hnr⟩) hnone n
    · exact fetch_empty_terminal tables rowOf f n
    · rcases Nat.lt_or_ge (streamOf tables rowOf f ids0).length cs.length
        with hNK | hNK
      · obtain ⟨hlen0, habs0⟩ :=
          combinationCursors_abs tables rowOf f ids0 cs.length hK
        rw [← hcs] at habs0
        have hnr0 : ∀ j, j < cs.length →
            (streamOf tables rowOf f ids0).length ≤
              ((0 : Nat) :: List.replicate (cs.length - 1)
                (streamOf tables rowOf f ids0).length).getD j 0 +
                (cs.length - 1 - j) := by
          intro j hj
          cases j with
          | zero =>
            rw [List.getD_cons_zero]
            omega
          | succ j =>
            rw [List.getD_cons_succ, List.getD_eq_getElem?_getD,
              List.getElem?_replicate, if_pos (by omega), Option.getD_some]
            omega
        exact fetch_abs_terminal tables rowOf f n cs _ habs0 hK hnr0
      · obtain ⟨cs2, hfe, -, -⟩ :=
          fetch_next_init_le tables rowOf f ids0 cs.length hK hNK
        rw [← hcs] at hfe
        rw [hfe] at hnone
        simp at hnone
    · have hplen : ps.length = cs.length := hv.1
      have hnrp : ∀ j, j < cs.length →
          S.length ≤ ps.getD j 0 + (cs.length - j) := by
        intro j hj
        by_contra hlt
        have hroom : ps.getD j 0 + (cs.length - j) < S.length :=
          Nat.lt_of_not_le hlt
        obtain ⟨istar, histar, hroomI, habove⟩ :=
          exists_greatest
            (fun j2 => ps.getD j2 0 + (cs.length - j2) < S.length)
            cs.length ⟨j, hj, hroom⟩
        obtain ⟨cs2, hfe, -, -⟩ :=
          fetch_next_canon_succ tables rowOf f hcan hv histar hroomI
            (fun j2 h1 h2 => Nat.le_of_not_lt (habove j2 h1 h2))
        rw [hfe] at hnone
        simp at hnone
      have hmnr : ∀ j, j < cs.length →
          S.length ≤ (ps.map fun p => p + 1).getD j 0 +
            (cs.length - 1 - j) := by
        intro j hj
        rw [getD_map_add_one ps j (by omega)]
        have := hnrp j hj
        omega
      exact fetch_abs_terminal tables rowOf f n cs (ps.map fun p => p + 1)
        hcan.1 hK hmnr
    · exact fetch_abs_terminal tables rowOf f n cs ks habs hK hnr

/-- **C5 witness**: a consumed single cursor stays exhausted for three more
calls, and the empty combination cursor array stays exhausted as well. -/
theorem query_exhausted_terminal_witness :
    (WFc (⟨[0], [], 0, 0⟩ : Cursor Nat) ∧
      (cursorNext (fun _ => ([] : List Nat)) (fun _ i => i) (fun _ _ => true)
        ⟨[0], [], 0, 0⟩).1 = none ∧
      (cursorIterate (fun _ => ([] : List Nat)) (fun _ i => i)
        (fun _ _ => true) 3 ⟨[0], [], 0, 0⟩).1 = none) ∧
    ((fetch_next (fun _ => ([] : List Nat)) (fun _ i => i) (fun _ _ => true)
        ([] : List (Cursor Nat))).1 = none ∧
      (fetchIterate (fun _ => ([] : List Nat)) (fun _ i => i)
        (fun _ _ => true) 3 ([] : List (Cursor Nat))).1 = none) :=
  ⟨⟨⟨rfl, Nat.le_refl 0⟩, by decide,
    (query_exhausted_terminal (fun _ => ([] : List Nat)) (fun _ i => i)
      (fun _ _ => true)).1 ⟨[0], [], 0, 0⟩ ⟨rfl, Nat.le_refl 0⟩ (by decide) 3⟩,
   ⟨by decide,
    (query_exhausted_terminal (fun _ => ([] : List Nat)) (fun _ i => i)
      (fun _ _ => true)).2 [] [] (Or.inl rfl) (by decide) 3⟩⟩

end BevyEcs
